import Mathlib

/- Verification of the attack-simulator core of the flow-ua repository.
   The embedded code comes from "src/Final codes/Final.py" (namespace `Final`),
   "src/Final codes/Final1.py" (namespace `Final1`) and
   "src/Final codes/week9finalcode.py" (namespace `Week9`). -/

namespace FlowUA

abbrev Node := String

abbrev Edge := Node × Node

/-- Attributes stored on a networkx edge that the attack code reads:
`capacity` and `can_attack` (`attack_cost` is metadata the attack algorithms
never read, so it is omitted). Capacities are Python ints, embedded as `Int`. -/
structure EdgeData where
  capacity : Int
  can_attack : Bool
deriving DecidableEq

/-- Directed capacitated graph: an ordered association list from the edge
(u, v) to its attributes, mirroring a networkx `DiGraph` and its iteration
order. The graph invariant (at most one entry per ordered pair) is carried as
a `keys.Nodup` hypothesis where a proof needs it. -/
structure FlowGraph where
  edges : List (Edge × EdgeData)
deriving DecidableEq

def FlowGraph.keys (g : FlowGraph) : List Edge := g.edges.map Prod.fst

def FlowGraph.caps (g : FlowGraph) : List Int := g.edges.map (fun p => p.2.capacity)

/-- Test for `G.has_edge(u, v)`. -/
def FlowGraph.hasEdge (g : FlowGraph) (e : Edge) : Bool := g.edges.any (fun p => p.1 == e)

/-- Capacity lookup in a raw edge association list (first matching entry). -/
def lookCap (l : List (Edge × EdgeData)) (e : Edge) (dflt : Int) : Int :=
  match l.find? (fun p => p.1 == e) with
  | some p => p.2.capacity
  | none => dflt

/-- Read `G[u][v]['capacity']` (first matching entry), with an explicit default
for the `dict.get` call sites; the attack code only ever reads edges that are
present, so the default is never the interesting case. -/
def FlowGraph.getCapD (g : FlowGraph) (e : Edge) (dflt : Int) : Int :=
  lookCap g.edges e dflt

/-- Write `G[u][v]['capacity'] = c`; a no-op when the edge is absent (the
Python code only writes edges it has just read from the same graph). -/
def FlowGraph.setCap (g : FlowGraph) (e : Edge) (c : Int) : FlowGraph :=
  ⟨g.edges.map (fun p => if p.1 = e then (p.1, ⟨c, p.2.can_attack⟩) else p)⟩

/-- Endpoint nodes of a key list, deduplicated. -/
def nodesOfKeys (ks : List Edge) : List Node :=
  (ks.flatMap (fun e => [e.1, e.2])).dedup

def FlowGraph.nodes (g : FlowGraph) : List Node := nodesOfKeys g.keys

/- ---------- max-flow model ----------
Modelled from the spec: the repository computes max-flow with the external
networkx `maximum_flow` (Edmonds-Karp), which is not part of the repository
sources. Per the spec (section 4.1), `MaxFlow(source, sink)` returns the
maximum feasible flow value for "any correct max-flow algorithm", and returns
value 0 with an empty (all-zero) assignment when source and sink are
disconnected. We model the value as the maximum of the net outflow at the
source over all explicitly enumerated feasible integer assignments, and the
returned assignment as the first enumerated feasible assignment attaining
that value (the enumeration starts at the all-zero assignment, so a
disconnected pair yields the all-zero assignment, as Edmonds-Karp does). -/

/-- Integers 0, 1, ..., c (just [0] when c < 0). -/
def intRange (c : Int) : List Int := (List.range (c.toNat + 1)).map Int.ofNat

/-- All candidate assignments: one value in `intRange c` per capacity `c`. -/
def tuples : List Int → List (List Int)
  | [] => [[]]
  | c :: cs => (intRange c).flatMap (fun x => (tuples cs).map (fun xs => x :: xs))

/-- Total flow leaving node `n` in an (edge, flow) pairing. -/
def outAt (pr : List (Edge × Int)) (n : Node) : Int :=
  ((pr.filter (fun p => p.1.1 == n)).map Prod.snd).sum

/-- Total flow entering node `n` in an (edge, flow) pairing. -/
def inAt (pr : List (Edge × Int)) (n : Node) : Int :=
  ((pr.filter (fun p => p.1.2 == n)).map Prod.snd).sum

def boundsOkB (cs : List Int) (f : List Int) : Bool :=
  f.length == cs.length && (f.zip cs).all (fun p => decide (0 ≤ p.1) && decide (p.1 ≤ p.2))

def conservesB (ks : List Edge) (s t : Node) (f : List Int) : Bool :=
  (nodesOfKeys ks).all (fun n =>
    n == s || n == t || inAt (ks.zip f) n == outAt (ks.zip f) n)

def feasibleB (ks : List Edge) (cs : List Int) (s t : Node) (f : List Int) : Bool :=
  boundsOkB cs f && conservesB ks s t f

/-- Net outflow at `s` of an assignment (the flow value of the assignment). -/
def valueAt (ks : List Edge) (s : Node) (f : List Int) : Int :=
  outAt (ks.zip f) s - inAt (ks.zip f) s

def feasibleFlows (ks : List Edge) (cs : List Int) (s t : Node) : List (List Int) :=
  (tuples cs).filter (feasibleB ks cs s t)

/-- Modelled from the spec: the value returned by `nx.maximum_flow` — the
maximum of `valueAt` over all feasible assignments (0 when none exist). -/
def maxFlowValueKC (ks : List Edge) (cs : List Int) (s t : Node) : Int :=
  (feasibleFlows ks cs s t).foldr (fun f m => max (valueAt ks s f) m) 0

/-- Modelled from the spec: the flow assignment returned by `nx.maximum_flow` —
the first enumerated feasible assignment attaining the maximum value. -/
def maxFlowAssignKC (ks : List Edge) (cs : List Int) (s t : Node) : List Int :=
  match (feasibleFlows ks cs s t).find?
      (fun f => valueAt ks s f == maxFlowValueKC ks cs s t) with
  | some f => f
  | none => List.replicate cs.length 0

def maxFlowValue (g : FlowGraph) (s t : Node) : Int := maxFlowValueKC g.keys g.caps s t

/-- Flow dictionary `flow_dict` as an (edge, flow) association list in edge
iteration order. -/
def maxFlowDict (g : FlowGraph) (s t : Node) : List (Edge × Int) :=
  g.keys.zip (maxFlowAssignKC g.keys g.caps s t)

/-- Read `flow_dict.get(u, {}).get(v, 0)`. -/
def flowAt (d : List (Edge × Int)) (e : Edge) : Int :=
  match d.find? (fun p => p.1 == e) with
  | some p => p.2
  | none => 0

/-- Stable insertion of one element: `x` goes after every prefix element `y`
with `le y x`, so equal keys keep their original order. -/
def insertLe {α : Type} (le : α → α → Bool) (x : α) : List α → List α
  | [] => [x]
  | y :: ys => if le y x then y :: insertLe le x ys else x :: y :: ys

/-- Stable insertion sort by a Boolean relation, modelling Python's stable
`sorted` / `list.sort` (structurally recursive, so concrete runs of the
attack code reduce inside the kernel). -/
def sortLe {α : Type} (le : α → α → Bool) (l : List α) : List α :=
  l.foldl (fun acc x => insertLe le x acc) []

/- ---------- Final.py attack code ---------- -/

namespace Final

/-- Candidate list of `budgeted_attack` in Final.py: the dictionary entries
with strictly positive flow, paired with their G_copy capacity, sorted by
descending capacity (Python stable sort with reverse=True). -/
def candidates (g : FlowGraph) (d : List (Edge × Int)) : List (Edge × Int) :=
  sortLe (fun a b => decide (b.2 ≤ a.2))
    ((d.filter (fun p => decide (0 < p.2))).map (fun p => (p.1, g.getCapD p.1 0)))

/-- Greedy reduction loop of `budgeted_attack` in Final.py, threading the live
graph and `total_reduced`, returning also the `affected_edges` list. -/
def budgetLoop (budget : Int) :
    List (Edge × Int) → FlowGraph → Int → FlowGraph × Int × List (Edge × Int)
  | [], g, total => (g, total, [])
  | (e, cap) :: rest, g, total =>
    if budget ≤ total then (g, total, [])
    else
      let reduction := min (cap - 1) (budget - total)
      let r := budgetLoop budget rest (g.setCap e (max 1 (cap - reduction))) (total + reduction)
      (r.1, r.2.1, (e, reduction) :: r.2.2)

structure BAResult where
  flowBefore : Int
  flowAfter : Int
  affected : List (Edge × Int)
  live : FlowGraph
deriving DecidableEq

/-- Final.py `budgeted_attack`: max-flow on a deep copy, rank positive-flow
edges by descending capacity, greedily reduce on the live graph, recompute
max-flow on the live graph. -/
def budgeted_attack (g : FlowGraph) (s t : Node) (budget : Int) : BAResult :=
  let fb := maxFlowValue g s t
  let r := budgetLoop budget (candidates g (maxFlowDict g s t)) g 0
  ⟨fb, maxFlowValue r.1 s t, r.2.2, r.1⟩

/-- Per-round candidate metric list of Final.py `multi_step_attack`: in flow
mode all dictionary entries (zero-flow edges included), otherwise all edges
with their current capacity. No `can_attack` filter in this variant. -/
def stepCandidates (g : FlowGraph) (d : List (Edge × Int)) (infoFlow : Bool) :
    List (Edge × Int) :=
  if infoFlow then d
  else g.edges.map (fun p => (p.1, p.2.capacity))

/-- Halve one selected edge on the working copy and append the per-round
reduction to `affected_edges` (Final.py guards with `has_edge`). -/
def halveStep (st : FlowGraph × List (Edge × Int)) (e : Edge) :
    FlowGraph × List (Edge × Int) :=
  if st.1.hasEdge e then
    let oldCap := st.1.getCapD e 0
    let newCap := max 1 (Int.fdiv oldCap 2)
    (st.1.setCap e newCap, st.2 ++ [(e, oldCap - newCap)])
  else st

/-- One round of Final.py `multi_step_attack` on the working state. -/
def roundStep (s t : Node) (infoFlow : Bool) (eps : Nat)
    (st : FlowGraph × List (Edge × Int)) : FlowGraph × List (Edge × Int) :=
  let d := maxFlowDict st.1 s t
  let top := (sortLe (fun a b => decide (b.2 ≤ a.2)) (stepCandidates st.1 d infoFlow)).take eps
  top.foldl (fun acc p => halveStep acc p.1) st

structure MSResult where
  flowBefore : Int
  flowAfter : Int
  affected : List (Edge × Int)
  live : FlowGraph
  copyG : FlowGraph
deriving DecidableEq

/-- Final.py `multi_step_attack`: iterate rounds on a working copy, compute
`flow_value_after` on the working copy, then copy each affected edge's final
working-copy capacity onto the live graph. -/
def multi_step_attack (g : FlowGraph) (s t : Node) (infoFlow : Bool) (steps eps : Nat) :
    MSResult :=
  let fb := maxFlowValue g s t
  let st := (roundStep s t infoFlow eps)^[steps] (g, [])
  let fa := maxFlowValue st.1 s t
  let live := st.2.foldl
    (fun h p => if h.hasEdge p.1 then h.setCap p.1 (st.1.getCapD p.1 0) else h) g
  ⟨fb, fa, st.2, live, st.1⟩

end Final

/- ---------- Final1.py attack code ---------- -/

namespace Final1

/-- Candidate list of `budgeted_attack` in Final1.py: attackable edges with
strictly positive flow, as (edge, capacity, flow_amount). -/
def candidates (g : FlowGraph) (d : List (Edge × Int)) : List (Edge × Int × Int) :=
  g.edges.filterMap (fun p =>
    if p.2.can_attack then
      let f := flowAt d p.1
      if 0 < f then some (p.1, p.2.capacity, f) else none
    else none)

/-- Sort key of Final1.py `budgeted_attack`: descending (flow_amount,
capacity) lexicographically. -/
def keyGE (a b : Edge × Int × Int) : Bool :=
  decide (b.2.2 < a.2.2 ∨ (a.2.2 = b.2.2 ∧ b.2.1 ≤ a.2.1))

def sortedCandidates (g : FlowGraph) (d : List (Edge × Int)) : List (Edge × Int × Int) :=
  sortLe keyGE (candidates g d)

/-- Greedy reduction loop of `budgeted_attack` in Final1.py: skips candidates
with no reducible capacity, reads the live capacity before writing. -/
def budgetLoop (budget : Int) :
    List (Edge × Int × Int) → FlowGraph → Int → FlowGraph × Int
  | [], g, total => (g, total)
  | (e, cap, _) :: rest, g, total =>
    if budget ≤ total then (g, total)
    else if cap - 1 ≤ 0 then budgetLoop budget rest g total
    else
      let reduction := min (cap - 1) (budget - total)
      budgetLoop budget rest (g.setCap e (max 1 (g.getCapD e 1 - reduction))) (total + reduction)

/-- Final1.py `budgeted_attack`; it returns only (flow_before, flow_after),
the mutated live graph is exposed as the third component. -/
def budgeted_attack (g : FlowGraph) (s t : Node) (budget : Int) : Int × Int × FlowGraph :=
  let fb := maxFlowValue g s t
  let r := budgetLoop budget (sortedCandidates g (maxFlowDict g s t)) g 0
  (fb, maxFlowValue r.1 s t, r.1)

/-- Cumulative reduction map keyed by (u, v), in Python dict insertion order. -/
abbrev RedMap := List (Edge × Int)

def lookupRed (m : RedMap) (e : Edge) : Option Int :=
  (m.find? (fun p => p.1 == e)).map Prod.snd

def lookup0 (m : RedMap) (e : Edge) : Int := (lookupRed m e).getD 0

/-- Write `cumulative_reduction[(u,v)] = cumulative_reduction.get((u,v), 0) + r`. -/
def bump (m : RedMap) (e : Edge) (r : Int) : RedMap :=
  if m.any (fun p => p.1 == e) then m.map (fun p => if p.1 = e then (p.1, p.2 + r) else p)
  else m ++ [(e, r)]

/-- Per-round candidate metric list of Final1.py `multi_step_attack`:
attackable edges, with positive flow in flow mode, all with capacity metric
otherwise. -/
def stepCandidates (g : FlowGraph) (d : List (Edge × Int)) (infoFlow : Bool) :
    List (Edge × Int) :=
  if infoFlow then
    g.edges.filterMap (fun p =>
      if p.2.can_attack then
        let f := flowAt d p.1
        if 0 < f then some (p.1, f) else none
      else none)
  else
    (g.edges.filter (fun p => p.2.can_attack)).map (fun p => (p.1, p.2.capacity))

/-- Halve one selected edge on the working copy, skipping zero reductions, and
accumulate the reduction in the cumulative map. -/
def halveStep (st : FlowGraph × RedMap) (e : Edge) : FlowGraph × RedMap :=
  let oldCap := st.1.getCapD e 0
  let newCap := max 1 (Int.fdiv oldCap 2)
  let reduction := oldCap - newCap
  if reduction ≤ 0 then st
  else (st.1.setCap e newCap, bump st.2 e reduction)

/-- Top `edges_per_step` candidates of one round, sorted by descending metric. -/
def topEdges (g : FlowGraph) (s t : Node) (infoFlow : Bool) (eps : Nat) : List (Edge × Int) :=
  (sortLe (fun a b => decide (b.2 ≤ a.2)) (stepCandidates g (maxFlowDict g s t) infoFlow)).take eps

/-- One round of Final1.py `multi_step_attack` on the working state. -/
def roundStep (s t : Node) (infoFlow : Bool) (eps : Nat) (st : FlowGraph × RedMap) :
    FlowGraph × RedMap :=
  (topEdges st.1 s t infoFlow eps).foldl (fun acc p => halveStep acc p.1) st

structure MSResult where
  flowBefore : Int
  flowAfter : Int
  live : FlowGraph
  copyG : FlowGraph
  cum : RedMap
deriving DecidableEq

/-- Apply the accumulated reductions once to the live graph:
`G[u][v]['capacity'] = max(1, caps_before[(u,v)] - total_reduction)`. -/
def commit (g : FlowGraph) (m : RedMap) : FlowGraph :=
  m.foldl (fun h p => h.setCap p.1 (max 1 (g.getCapD p.1 0 - p.2))) g

/-- Final1.py `multi_step_attack`: iterate rounds on a working copy keeping a
cumulative per-edge reduction map, commit once to the live graph, report
max-flow of the pristine copy and of the mutated live graph. -/
def multi_step_attack (g : FlowGraph) (s t : Node) (infoFlow : Bool) (steps eps : Nat) :
    MSResult :=
  let st := (roundStep s t infoFlow eps)^[steps] (g, ([] : RedMap))
  let live := commit g st.2
  ⟨maxFlowValue g s t, maxFlowValue live s t, live, st.1, st.2⟩

end Final1

/- ---------- week9finalcode.py attack code ---------- -/

namespace Week9

/-- week9finalcode.py `random_attack`: removes the sampled edges from the live
graph. The call to `random.sample(list(G_copy.edges()), ...)` is modelled by
passing the sampled edge list as an explicit argument. -/
def random_attack (g : FlowGraph) (s t : Node) (sampled : List Edge) :
    Int × Int × FlowGraph :=
  let fb := maxFlowValue g s t
  let live : FlowGraph := ⟨g.edges.filter (fun p => !(sampled.contains p.1))⟩
  (fb, maxFlowValue live s t, live)

end Week9

/- ---------- Final1.py construction-time capacity normalisation ---------- -/

/-- Raw state of the `capacity` attribute of one edge before normalisation:
absent, `None`, convertible to the int `n` by Python `int(...)`, or a value
on which `int(...)` raises. -/
inductive RawCap where
  | missing
  | noneVal
  | intLike (n : Int)
  | bad
deriving DecidableEq

/-- Final1.py `_ensure_capacity` on one edge: a missing or None capacity
becomes `min_cap`, a convertible value becomes `max(int(value), min_cap)`,
and a non-convertible value becomes `min_cap`. -/
def ensure_capacity (min_cap : Int) : RawCap → Int
  | .missing => min_cap
  | .noneVal => min_cap
  | .intLike n => max n min_cap
  | .bad => min_cap

/-- `_ensure_capacity(G, min_cap)` over a whole raw edge list (raw capacity
and `can_attack` flag per edge). -/
def ensureCapacityGraph (min_cap : Int) (es : List (Edge × RawCap × Bool)) : FlowGraph :=
  ⟨es.map (fun p => (p.1, ⟨ensure_capacity min_cap p.2.1, p.2.2⟩))⟩

/- ---------- sequences of attack operations ---------- -/

/-- One attack invocation, for stating properties of arbitrary sequences of
attacks (the live graph each invocation mutates is threaded through). -/
inductive AttackOp where
  | budgF (s t : Node) (b : Int)
  | budg1 (s t : Node) (b : Int)
  | multiF (s t : Node) (infoFlow : Bool) (steps eps : Nat)
  | multi1 (s t : Node) (infoFlow : Bool) (steps eps : Nat)

def applyOp (g : FlowGraph) : AttackOp → FlowGraph
  | .budgF s t b => (Final.budgeted_attack g s t b).live
  | .budg1 s t b => (Final1.budgeted_attack g s t b).2.2
  | .multiF s t i st eps => (Final.multi_step_attack g s t i st eps).live
  | .multi1 s t i st eps => (Final1.multi_step_attack g s t i st eps).live

def applyOps (g : FlowGraph) (ops : List AttackOp) : FlowGraph := ops.foldl applyOp g

/-- Capacity floor invariant: every edge present in the graph has capacity at
least 1. -/
def capsGE1 (g : FlowGraph) : Prop := ∀ p ∈ g.edges, 1 ≤ p.2.capacity

instance instDecidableCapsGE1 (g : FlowGraph) : Decidable (capsGE1 g) :=
  inferInstanceAs (Decidable (∀ p ∈ g.edges, 1 ≤ p.2.capacity))

/-- Pointwise capacity domination with identical topology. -/
def capsLE (g' g : FlowGraph) : Prop :=
  g'.keys = g.keys ∧ List.Forall₂ (fun c' c => c' ≤ c) g'.caps g.caps

/-- Concrete two-edge chain used by several witnesses: N1 -> N2 (capacity 3),
N2 -> N3 (capacity 2). -/
def gW : FlowGraph := ⟨[(("N1", "N2"), ⟨3, true⟩), (("N2", "N3"), ⟨2, true⟩)]⟩

/-- Concrete sequence of attack operations used by the C2 witness. -/
def opsW : List AttackOp :=
  [.budgF "N1" "N3" 2, .multi1 "N1" "N3" false 1 1, .multiF "N1" "N3" true 1 2,
   .budg1 "N1" "N3" 1]

/-- Concrete graph with a single edge a -> b (capacity 4), used by the C4 and
C8 counterexamples: its sink "c" is unreachable from "a". -/
def gDis : FlowGraph := ⟨[(("a", "b"), ⟨4, true⟩)]⟩

end FlowUA

namespace FlowUA

/- ---------- stable sort lemmas ---------- -/

theorem mem_insertLe {α : Type} (le : α → α → Bool) (x : α) :
    ∀ (l : List α) (a : α), a ∈ insertLe le x l ↔ a = x ∨ a ∈ l := by
  intro l
  induction l with
  | nil =>
    intro a
    unfold insertLe
    simp
  | cons y ys ih =>
    intro a
    unfold insertLe
    by_cases h : le y x
    · rw [if_pos h, List.mem_cons, ih a, List.mem_cons]
      tauto
    · rw [if_neg h, List.mem_cons, List.mem_cons]

theorem insertLe_perm {α : Type} (le : α → α → Bool) (x : α) :
    ∀ l : List α, (insertLe le x l).Perm (x :: l) := by
  intro l
  induction l with
  | nil => exact List.Perm.refl [x]
  | cons y ys ih =>
    unfold insertLe
    by_cases h : le y x
    · rw [if_pos h]
      exact (ih.cons y).trans (List.Perm.swap x y ys)
    · rw [if_neg h]

theorem insertLe_pairwise {α : Type} (le : α → α → Bool)
    (htrans : ∀ a b c, le a b = true → le b c = true → le a c = true)
    (htot : ∀ a b, (le a b || le b a) = true) (x : α) :
    ∀ l : List α, List.Pairwise (fun a b => le a b = true) l →
      List.Pairwise (fun a b => le a b = true) (insertLe le x l) := by
  intro l
  induction l with
  | nil =>
    intro _
    exact List.pairwise_singleton _ x
  | cons y ys ih =>
    intro h
    rw [List.pairwise_cons] at h
    unfold insertLe
    by_cases hle : le y x
    · rw [if_pos hle, List.pairwise_cons]
      refine ⟨?_, ih h.2⟩
      intro z hz
      rw [mem_insertLe le x ys z] at hz
      rcases hz with hz | hz
      · rw [hz]
        exact hle
      · exact h.1 z hz
    · rw [if_neg hle]
      have hxy : le x y = true := by
        have h2 := htot y x
        rw [Bool.or_eq_true] at h2
        rcases h2 with h2 | h2
        · exact absurd h2 hle
        · exact h2
      rw [List.pairwise_cons]
      refine ⟨?_, List.pairwise_cons.mpr h⟩
      intro z hz
      rcases List.mem_cons.mp hz with hzy | hzys
      · rw [hzy]
        exact hxy
      · exact htrans x y z hxy (h.1 z hzys)

theorem foldl_insertLe_perm {α : Type} (le : α → α → Bool) :
    ∀ (l acc : List α), (l.foldl (fun a x => insertLe le x a) acc).Perm (acc ++ l) := by
  intro l
  induction l with
  | nil =>
    intro acc
    rw [List.foldl_nil, List.append_nil]
  | cons x rest ih =>
    intro acc
    rw [List.foldl_cons]
    refine (ih (insertLe le x acc)).trans ?_
    refine (List.Perm.append_right rest (insertLe_perm le x acc)).trans ?_
    exact List.perm_middle.symm

theorem foldl_insertLe_pairwise {α : Type} (le : α → α → Bool)
    (htrans : ∀ a b c, le a b = true → le b c = true → le a c = true)
    (htot : ∀ a b, (le a b || le b a) = true) :
    ∀ (l acc : List α), List.Pairwise (fun a b => le a b = true) acc →
      List.Pairwise (fun a b => le a b = true) (l.foldl (fun a x => insertLe le x a) acc) := by
  intro l
  induction l with
  | nil => intro acc h; exact h
  | cons x rest ih =>
    intro acc h
    rw [List.foldl_cons]
    exact ih _ (insertLe_pairwise le htrans htot x acc h)

theorem sortLe_perm {α : Type} (le : α → α → Bool) (l : List α) : (sortLe le l).Perm l := by
  unfold sortLe
  have h := foldl_insertLe_perm le l []
  rwa [List.nil_append] at h

theorem mem_sortLe {α : Type} {le : α → α → Bool} {l : List α} {a : α} :
    a ∈ sortLe le l ↔ a ∈ l := (sortLe_perm le l).mem_iff

theorem sortLe_pairwise {α : Type} (le : α → α → Bool)
    (htrans : ∀ a b c, le a b = true → le b c = true → le a c = true)
    (htot : ∀ a b, (le a b || le b a) = true) (l : List α) :
    List.Pairwise (fun a b => le a b = true) (sortLe le l) :=
  foldl_insertLe_pairwise le htrans htot l [] List.Pairwise.nil

theorem sortLe_nil {α : Type} (le : α → α → Bool) : sortLe le [] = [] := rfl

/- ---------- basic graph lemmas ---------- -/

theorem keys_setCap (g : FlowGraph) (e : Edge) (c : Int) : (g.setCap e c).keys = g.keys := by
  unfold FlowGraph.setCap FlowGraph.keys
  simp only [List.map_map]
  apply List.map_congr_left
  intro p _
  by_cases h : p.1 = e <;> simp [h]

theorem nodes_setCap (g : FlowGraph) (e : Edge) (c : Int) : (g.setCap e c).nodes = g.nodes := by
  unfold FlowGraph.nodes
  rw [keys_setCap]

theorem hasEdge_iff {g : FlowGraph} {e : Edge} : g.hasEdge e = true ↔ e ∈ g.keys := by
  unfold FlowGraph.hasEdge FlowGraph.keys
  simp only [List.any_eq_true, List.mem_map, beq_iff_eq]

theorem hasEdge_setCap (g : FlowGraph) (e e' : Edge) (c : Int) :
    (g.setCap e c).hasEdge e' = g.hasEdge e' := by
  by_cases h : e' ∈ g.keys
  · have h1 : (g.setCap e c).hasEdge e' = true := hasEdge_iff.mpr (by rw [keys_setCap]; exact h)
    have h2 : g.hasEdge e' = true := hasEdge_iff.mpr h
    rw [h1, h2]
  · have h1 : ¬(g.setCap e c).hasEdge e' = true := by
      rw [hasEdge_iff, keys_setCap]; exact h
    have h2 : ¬g.hasEdge e' = true := by rw [hasEdge_iff]; exact h
    rw [Bool.not_eq_true] at h1 h2
    rw [h1, h2]

theorem setCap_comp_fst (e : Edge) (c : Int) :
    ((fun p : Edge × EdgeData => p.1 == e) ∘
      (fun p : Edge × EdgeData => if p.1 = e then (p.1, ⟨c, p.2.can_attack⟩) else p))
    = (fun p : Edge × EdgeData => p.1 == e) := by
  funext p
  by_cases h : p.1 = e <;> simp [h]

theorem getCapD_setCap_ne (g : FlowGraph) {e e' : Edge} (c d : Int) (h : e' ≠ e) :
    (g.setCap e c).getCapD e' d = g.getCapD e' d := by
  unfold FlowGraph.setCap FlowGraph.getCapD lookCap
  dsimp only
  rw [List.find?_map]
  have hcomp : ((fun p : Edge × EdgeData => p.1 == e') ∘
      (fun p : Edge × EdgeData => if p.1 = e then (p.1, ⟨c, p.2.can_attack⟩) else p))
      = (fun p : Edge × EdgeData => p.1 == e') := by
    funext p
    by_cases hp : p.1 = e <;> simp [hp]
  rw [hcomp]
  cases hfind : g.edges.find? (fun p => p.1 == e') with
  | none => rfl
  | some q =>
    have hq : q.1 = e' := by simpa using List.find?_some hfind
    have : ¬ q.1 = e := by rw [hq]; exact h
    simp [this]

theorem getCapD_setCap_self (g : FlowGraph) (e : Edge) (c d : Int) :
    (g.setCap e c).getCapD e d = if g.hasEdge e then c else d := by
  unfold FlowGraph.setCap FlowGraph.getCapD lookCap
  dsimp only
  rw [List.find?_map, setCap_comp_fst]
  cases hfind : g.edges.find? (fun p => p.1 == e) with
  | none =>
    rw [List.find?_eq_none] at hfind
    have : g.hasEdge e = false := by
      rw [← Bool.not_eq_true, FlowGraph.hasEdge, List.any_eq_true]
      rintro ⟨p, hp, hpe⟩
      exact hfind p hp hpe
    rw [this]
    rfl
  | some q =>
    have hq : q.1 = e := by simpa using List.find?_some hfind
    have : g.hasEdge e = true := by
      rw [FlowGraph.hasEdge, List.any_eq_true]
      exact ⟨q, List.mem_of_find?_eq_some hfind, by simp [hq]⟩
    rw [this]
    simp [hq]

theorem getCapD_eq_of_mem {g : FlowGraph} {e : Edge} {ed : EdgeData} (d : Int)
    (hnd : g.keys.Nodup) (hm : (e, ed) ∈ g.edges) : g.getCapD e d = ed.capacity := by
  unfold FlowGraph.getCapD lookCap
  cases hfind : g.edges.find? (fun p => p.1 == e) with
  | none =>
    rw [List.find?_eq_none] at hfind
    exact absurd (by simp : ((e, ed).1 == e) = true) (hfind _ hm)
  | some q =>
    have hq := List.mem_of_find?_eq_some hfind
    have hqe : q.1 = e := by simpa using List.find?_some hfind
    have hinj := List.inj_on_of_nodup_map (f := Prod.fst) (l := g.edges) hnd
    have : q = (e, ed) := hinj hq hm (by simp [hqe])
    rw [this]

theorem getCapD_ge_one {g : FlowGraph} {e : Edge} (d : Int) (hc : capsGE1 g)
    (hk : e ∈ g.keys) : 1 ≤ g.getCapD e d := by
  obtain ⟨p, hp, hpe⟩ : ∃ p ∈ g.edges, p.1 = e := by
    simpa [FlowGraph.keys, List.mem_map] using hk
  unfold FlowGraph.getCapD lookCap
  cases hfind : g.edges.find? (fun q => q.1 == e) with
  | none =>
    rw [List.find?_eq_none] at hfind
    exact absurd (by simp [hpe]) (hfind p hp)
  | some q =>
    exact hc q (List.mem_of_find?_eq_some hfind)

theorem capsGE1_setCap {g : FlowGraph} {c : Int} (e : Edge) (hc : capsGE1 g) (h1 : 1 ≤ c) :
    capsGE1 (g.setCap e c) := by
  intro p hp
  simp only [FlowGraph.setCap, List.mem_map] at hp
  obtain ⟨q, hq, hpq⟩ := hp
  by_cases hqe : q.1 = e
  · rw [if_pos hqe] at hpq
    rw [← hpq]
    exact h1
  · rw [if_neg hqe] at hpq
    rw [← hpq]
    exact hc q hq

end FlowUA

namespace FlowUA

/- ---------- fold-max lemmas ---------- -/

theorem foldrMax_le {α : Type} (val : α → Int) (L : List α) (b i : Int) (hi : i ≤ b)
    (h : ∀ x ∈ L, val x ≤ b) : L.foldr (fun x m => max (val x) m) i ≤ b := by
  induction L with
  | nil => exact hi
  | cons x rest ih =>
    simp only [List.foldr_cons]
    exact max_le (h x (List.mem_cons_self x rest))
      (ih (fun y hy => h y (List.mem_cons_of_mem x hy)))

theorem le_foldrMax {α : Type} (val : α → Int) {L : List α} {x : α} (hx : x ∈ L) (i : Int) :
    val x ≤ L.foldr (fun y m => max (val y) m) i := by
  induction L with
  | nil => cases hx
  | cons y rest ih =>
    simp only [List.foldr_cons]
    rcases List.mem_cons.mp hx with h | h
    · rw [h]; exact le_max_left _ _
    · exact le_trans (ih h) (le_max_right _ _)

theorem init_le_foldrMax {α : Type} (val : α → Int) (L : List α) (i : Int) :
    i ≤ L.foldr (fun y m => max (val y) m) i := by
  induction L with
  | nil => exact le_refl i
  | cons y rest ih =>
    simp only [List.foldr_cons]
    exact le_trans ih (le_max_right _ _)

theorem maxFlowValueKC_nonneg (ks : List Edge) (cs : List Int) (s t : Node) :
    0 ≤ maxFlowValueKC ks cs s t :=
  init_le_foldrMax _ _ 0

/- ---------- tuples lemmas ---------- -/

theorem mem_intRange {x c : Int} (h0 : 0 ≤ x) (hc : x ≤ c) : x ∈ intRange c := by
  unfold intRange
  rw [List.mem_map]
  refine ⟨x.toNat, ?_, Int.toNat_of_nonneg h0⟩
  rw [List.mem_range]
  have : x.toNat ≤ c.toNat := Int.toNat_le_toNat hc
  omega

theorem mem_tuples {f cs : List Int} (h : List.Forall₂ (fun x c => 0 ≤ x ∧ x ≤ c) f cs) :
    f ∈ tuples cs := by
  induction h with
  | nil => simp [tuples]
  | cons hxc _ ih =>
    rename_i x c f' cs' _
    unfold tuples
    rw [List.mem_flatMap]
    exact ⟨x, mem_intRange hxc.1 hxc.2, List.mem_map.mpr ⟨f', ih, rfl⟩⟩

theorem tuples_zero_head (cs : List Int) :
    ∃ r, tuples cs = List.replicate cs.length 0 :: r := by
  induction cs with
  | nil => exact ⟨[], rfl⟩
  | cons c cs' ih =>
    obtain ⟨r, hr⟩ := ih
    unfold tuples
    have h0 : intRange c = 0 :: (List.range c.toNat).map (fun n => Int.ofNat (n + 1)) := by
      unfold intRange
      rw [List.range_succ_eq_map]
      simp [List.map_map, Function.comp]
    rw [h0, List.flatMap_cons, hr]
    exact ⟨_, rfl⟩

/- ---------- feasibility decomposition ---------- -/

theorem boundsOkB_iff (cs f : List Int) :
    boundsOkB cs f = true ↔ List.Forall₂ (fun x c => 0 ≤ x ∧ x ≤ c) f cs := by
  unfold boundsOkB
  rw [List.forall₂_iff_zip]
  simp only [Bool.and_eq_true, beq_iff_eq, List.all_eq_true, decide_eq_true_eq]
  constructor
  · rintro ⟨hl, hb⟩
    exact ⟨hl, fun {a b} hab => hb (a, b) hab⟩
  · rintro ⟨hl, hb⟩
    exact ⟨hl, fun p hp => hb hp⟩

theorem conservesB_iff (ks : List Edge) (s t : Node) (f : List Int) :
    conservesB ks s t f = true ↔
      ∀ n ∈ nodesOfKeys ks, n ≠ s → n ≠ t → inAt (ks.zip f) n = outAt (ks.zip f) n := by
  unfold conservesB
  simp only [List.all_eq_true, Bool.or_eq_true, beq_iff_eq]
  constructor
  · intro h n hn hs ht
    rcases h n hn with (h' | h') | h'
    · exact absurd h' hs
    · exact absurd h' ht
    · exact h'
  · intro h n hn
    by_cases hs : n = s
    · exact Or.inl (Or.inl hs)
    · by_cases ht : n = t
      · exact Or.inl (Or.inr ht)
      · exact Or.inr (h n hn hs ht)

theorem feasibleB_iff (ks : List Edge) (cs : List Int) (s t : Node) (f : List Int) :
    feasibleB ks cs s t f = true ↔
      (List.Forall₂ (fun x c => 0 ≤ x ∧ x ≤ c) f cs ∧
       ∀ n ∈ nodesOfKeys ks, n ≠ s → n ≠ t → inAt (ks.zip f) n = outAt (ks.zip f) n) := by
  unfold feasibleB
  rw [Bool.and_eq_true, boundsOkB_iff, conservesB_iff]

/- ---------- monotonicity of the max-flow value ---------- -/

theorem forall₂_bounds_mono {f cs' cs : List Int}
    (h1 : List.Forall₂ (fun x c => 0 ≤ x ∧ x ≤ c) f cs')
    (h2 : List.Forall₂ (fun c' c => c' ≤ c) cs' cs) :
    List.Forall₂ (fun x c => 0 ≤ x ∧ x ≤ c) f cs := by
  induction h1 generalizing cs with
  | nil => cases h2; exact List.Forall₂.nil
  | cons hxc _ ih =>
    cases h2 with
    | cons hcc htail =>
      exact List.Forall₂.cons ⟨hxc.1, le_trans hxc.2 hcc⟩ (ih htail)

theorem mem_feasibleFlows_mono {ks : List Edge} {cs' cs : List Int} {s t : Node}
    {f : List Int} (h2 : List.Forall₂ (fun c' c => c' ≤ c) cs' cs)
    (hf : f ∈ feasibleFlows ks cs' s t) : f ∈ feasibleFlows ks cs s t := by
  unfold feasibleFlows at hf ⊢
  rw [List.mem_filter] at hf ⊢
  obtain ⟨-, hfeas⟩ := hf
  rw [feasibleB_iff] at hfeas
  obtain ⟨hb, hcon⟩ := hfeas
  have hb' := forall₂_bounds_mono hb h2
  exact ⟨mem_tuples hb', (feasibleB_iff ks cs s t f).mpr ⟨hb', hcon⟩⟩

theorem maxFlowValueKC_mono (ks : List Edge) {cs' cs : List Int} (s t : Node)
    (h : List.Forall₂ (fun c' c => c' ≤ c) cs' cs) :
    maxFlowValueKC ks cs' s t ≤ maxFlowValueKC ks cs s t := by
  unfold maxFlowValueKC
  apply foldrMax_le
  · exact maxFlowValueKC_nonneg ks cs s t
  · intro f hf
    exact le_foldrMax (valueAt ks s) (mem_feasibleFlows_mono h hf) 0

/- ---------- capacity comparison between graphs ---------- -/

theorem capsLE_refl (g : FlowGraph) : capsLE g g := by
  refine ⟨rfl, ?_⟩
  induction g.caps with
  | nil => exact List.Forall₂.nil
  | cons c rest ih => exact List.Forall₂.cons (le_refl c) ih

theorem forall₂_le_trans {a b c : List Int}
    (h1 : List.Forall₂ (fun x y => x ≤ y) a b) (h2 : List.Forall₂ (fun x y => x ≤ y) b c) :
    List.Forall₂ (fun x y => x ≤ y) a c := by
  induction h1 generalizing c with
  | nil => cases h2; exact List.Forall₂.nil
  | cons hxy _ ih =>
    cases h2 with
    | cons hyz htail => exact List.Forall₂.cons (le_trans hxy hyz) (ih htail)

theorem capsLE_trans {g1 g2 g3 : FlowGraph} (h1 : capsLE g1 g2) (h2 : capsLE g2 g3) :
    capsLE g1 g3 :=
  ⟨h1.1.trans h2.1, forall₂_le_trans h1.2 h2.2⟩

theorem maxFlowValue_mono {g' g : FlowGraph} (s t : Node) (h : capsLE g' g) :
    maxFlowValue g' s t ≤ maxFlowValue g s t := by
  unfold maxFlowValue
  rw [h.1]
  exact maxFlowValueKC_mono g.keys s t h.2

theorem forall₂_caps_setCap (l : List (Edge × EdgeData)) (e : Edge) (c : Int)
    (h : ∀ ed : EdgeData, (e, ed) ∈ l → c ≤ ed.capacity) :
    List.Forall₂ (fun c' cc => c' ≤ cc)
      ((l.map (fun p => if p.1 = e then (p.1, ⟨c, p.2.can_attack⟩) else p)).map
        (fun p => p.2.capacity))
      (l.map (fun p => p.2.capacity)) := by
  induction l with
  | nil => exact List.Forall₂.nil
  | cons p rest ih =>
    simp only [List.map_cons]
    refine List.Forall₂.cons ?_ (ih (fun ed hed => h ed (List.mem_cons_of_mem p hed)))
    by_cases hp : p.1 = e
    · rw [if_pos hp]
      refine h p.2 ?_
      rw [← hp]
      exact List.mem_cons_self p rest
    · rw [if_neg hp]

theorem capsLE_setCap {g : FlowGraph} {e : Edge} {c : Int}
    (h : ∀ ed : EdgeData, (e, ed) ∈ g.edges → c ≤ ed.capacity) :
    capsLE (g.setCap e c) g :=
  ⟨keys_setCap g e c, forall₂_caps_setCap g.edges e c h⟩

end FlowUA

namespace FlowUA

/- ---------- properties of the returned flow assignment ---------- -/

theorem maxFlowAssign_feasible_or_zero (ks : List Edge) (cs : List Int) (s t : Node) :
    feasibleB ks cs s t (maxFlowAssignKC ks cs s t) = true ∨
    maxFlowAssignKC ks cs s t = List.replicate cs.length 0 := by
  unfold maxFlowAssignKC
  cases hfind : (feasibleFlows ks cs s t).find?
      (fun f => valueAt ks s f == maxFlowValueKC ks cs s t) with
  | none => exact Or.inr rfl
  | some f =>
    left
    have hm := List.mem_of_find?_eq_some hfind
    unfold feasibleFlows at hm
    exact (List.mem_filter.mp hm).2

theorem maxFlowAssign_length (ks : List Edge) (cs : List Int) (s t : Node) :
    (maxFlowAssignKC ks cs s t).length = cs.length := by
  rcases maxFlowAssign_feasible_or_zero ks cs s t with hfe | hz
  · have := ((feasibleB_iff ks cs s t _).mp hfe).1
    exact List.Forall₂.length_eq this
  · rw [hz, List.length_replicate]

theorem keys_length_eq_caps_length (g : FlowGraph) : g.keys.length = g.caps.length := by
  unfold FlowGraph.keys FlowGraph.caps
  rw [List.length_map, List.length_map]

theorem maxFlowDict_keys (g : FlowGraph) (s t : Node) :
    (maxFlowDict g s t).map Prod.fst = g.keys := by
  unfold maxFlowDict
  exact List.map_fst_zip _ _ (by rw [maxFlowAssign_length, keys_length_eq_caps_length])

theorem lookCap_cons_pos {p : Edge × EdgeData} (rest : List (Edge × EdgeData)) {e : Edge}
    (d : Int) (h : (p.1 == e) = true) : lookCap (p :: rest) e d = p.2.capacity := by
  have hf : List.find? (fun q : Edge × EdgeData => q.1 == e) (p :: rest) = some p :=
    List.find?_cons_of_pos _ h
  unfold lookCap
  rw [hf]

theorem lookCap_cons_neg {p : Edge × EdgeData} (rest : List (Edge × EdgeData)) {e : Edge}
    (d : Int) (h : ¬(p.1 == e) = true) : lookCap (p :: rest) e d = lookCap rest e d := by
  have hf : List.find? (fun q : Edge × EdgeData => q.1 == e) (p :: rest)
      = List.find? (fun q : Edge × EdgeData => q.1 == e) rest :=
    List.find?_cons_of_neg _ h
  unfold lookCap
  rw [hf]

theorem zip_pos_flow_cap_bound :
    ∀ (l : List (Edge × EdgeData)) (f : List Int),
      ((l.map Prod.fst).Nodup) →
      List.Forall₂ (fun x c => 0 ≤ x ∧ x ≤ c) f (l.map (fun p => p.2.capacity)) →
      ∀ q ∈ (l.map Prod.fst).zip f, 0 < q.2 → 1 ≤ lookCap l q.1 0 := by
  intro l
  induction l with
  | nil => intro f _ _ q hq; cases hq
  | cons p rest ih =>
    intro f hnd hb q hq hpos
    rw [List.map_cons] at hb
    cases hb with
    | cons hx htail =>
      rename_i x f'
      rw [List.map_cons, List.nodup_cons] at hnd
      rw [List.map_cons, List.zip_cons_cons] at hq
      rcases List.mem_cons.mp hq with h | h
      · rw [h] at hpos ⊢
        rw [lookCap_cons_pos rest 0 (by simp)]
        have hle : x ≤ p.2.capacity := hx.2
        have : (0 : Int) < x := hpos
        omega
      · have hq1 : q.1 ∈ rest.map Prod.fst := ((List.of_mem_zip h).1)
        have hne : ¬(p.1 == q.1) = true := by
          simp only [beq_iff_eq]
          intro hc
          exact hnd.1 (hc ▸ hq1)
        rw [lookCap_cons_neg rest 0 hne]
        exact ih f' hnd.2 htail q h hpos

theorem maxFlowDict_pos_cap {g : FlowGraph} {s t : Node} (hnd : g.keys.Nodup) :
    ∀ q ∈ maxFlowDict g s t, 0 < q.2 → 1 ≤ g.getCapD q.1 0 := by
  intro q hq hpos
  rcases maxFlowAssign_feasible_or_zero g.keys g.caps s t with hfe | hz
  · have hb := ((feasibleB_iff _ _ _ _ _).mp hfe).1
    exact zip_pos_flow_cap_bound g.edges _ hnd hb q hq hpos
  · unfold maxFlowDict at hq
    rw [hz] at hq
    obtain ⟨qe, qf⟩ := q
    have := List.eq_of_mem_replicate (List.of_mem_zip hq).2
    simp only at this
    omega

theorem flowAt_pos_cap {g : FlowGraph} {s t : Node} {e : Edge} (hnd : g.keys.Nodup)
    (hpos : 0 < flowAt (maxFlowDict g s t) e) : 1 ≤ g.getCapD e 0 := by
  unfold flowAt at hpos
  cases hfind : (maxFlowDict g s t).find? (fun p => p.1 == e) with
  | none => rw [hfind] at hpos; exact absurd hpos (by norm_num)
  | some q =>
    rw [hfind] at hpos
    have hqe : q.1 = e := by simpa using List.find?_some hfind
    have := maxFlowDict_pos_cap hnd q (List.mem_of_find?_eq_some hfind) hpos
    rwa [hqe] at this

theorem mem_keys_of_getCapD_ne {g : FlowGraph} {e : Edge} (h : g.getCapD e 0 ≠ 0) :
    e ∈ g.keys := by
  unfold FlowGraph.getCapD lookCap at h
  cases hfind : g.edges.find? (fun p => p.1 == e) with
  | none => rw [hfind] at h; exact absurd rfl h
  | some q =>
    have hqe : q.1 = e := by simpa using List.find?_some hfind
    exact List.mem_map.mpr ⟨q, List.mem_of_find?_eq_some hfind, hqe⟩

theorem getCapD_default_irrel {g : FlowGraph} {e : Edge} (hk : e ∈ g.keys) (d d' : Int) :
    g.getCapD e d = g.getCapD e d' := by
  obtain ⟨p, hp, hpe⟩ : ∃ p ∈ g.edges, p.1 = e := by
    simpa [FlowGraph.keys, List.mem_map] using hk
  unfold FlowGraph.getCapD lookCap
  cases hfind : g.edges.find? (fun q => q.1 == e) with
  | none =>
    rw [List.find?_eq_none] at hfind
    exact absurd (by simp [hpe]) (hfind p hp)
  | some q => rfl

/-- A `filterMap` that preserves the key makes the output key list a sublist
of the input key list. -/
theorem map_fst_filterMap_sublist {α β γ : Type} (l : List α) (f : α → Option β)
    (key : α → γ) (keyb : β → γ) (h : ∀ a b, f a = some b → keyb b = key a) :
    ((l.filterMap f).map keyb).Sublist (l.map key) := by
  induction l with
  | nil => simp
  | cons a rest ih =>
    rw [List.filterMap_cons, List.map_cons]
    cases hfa : f a with
    | none => exact (ih).cons (key a)
    | some b =>
      rw [List.map_cons, h a b hfa]
      exact (ih).cons₂ (key a)

end FlowUA

namespace FlowUA

/- ---------- candidate lists of the budgeted attacks ---------- -/

theorem candidatesF_spec {g : FlowGraph} {s t : Node} (hnd : g.keys.Nodup) :
    ∀ p ∈ Final.candidates g (maxFlowDict g s t), g.getCapD p.1 0 = p.2 ∧ 1 ≤ p.2 := by
  intro p hp
  unfold Final.candidates at hp
  rw [mem_sortLe, List.mem_map] at hp
  obtain ⟨q, hq, hpq⟩ := hp
  rw [List.mem_filter] at hq
  obtain ⟨hqd, hqpos⟩ := hq
  rw [decide_eq_true_eq] at hqpos
  rw [← hpq]
  exact ⟨rfl, maxFlowDict_pos_cap hnd q hqd hqpos⟩

theorem candidatesF_keys_nodup {g : FlowGraph} (s t : Node) (hnd : g.keys.Nodup) :
    ((Final.candidates g (maxFlowDict g s t)).map Prod.fst).Nodup := by
  have hperm :
      ((Final.candidates g (maxFlowDict g s t)).map Prod.fst).Perm
        ((((maxFlowDict g s t).filter (fun p => decide (0 < p.2))).map
          (fun p => (p.1, g.getCapD p.1 0))).map Prod.fst) :=
    ((sortLe_perm _ _).map Prod.fst)
  rw [hperm.nodup_iff]
  rw [List.map_map]
  have hcong :
      (((maxFlowDict g s t).filter (fun p => decide (0 < p.2))).map
        (Prod.fst ∘ (fun p : Edge × Int => (p.1, g.getCapD p.1 0))))
      = (((maxFlowDict g s t).filter (fun p => decide (0 < p.2))).map Prod.fst) :=
    List.map_congr_left (fun a _ => rfl)
  rw [hcong]
  have hsub : ((((maxFlowDict g s t).filter (fun p => decide (0 < p.2))).map Prod.fst)).Sublist
      ((maxFlowDict g s t).map Prod.fst) :=
    (List.filter_sublist _).map Prod.fst
  rw [maxFlowDict_keys g s t] at hsub
  exact hsub.nodup hnd

theorem candidates1_spec {g : FlowGraph} {s t : Node} (hnd : g.keys.Nodup) :
    ∀ p ∈ Final1.sortedCandidates g (maxFlowDict g s t),
      g.getCapD p.1 0 = p.2.1 ∧ 1 ≤ p.2.1 := by
  intro p hp
  unfold Final1.sortedCandidates at hp
  rw [mem_sortLe] at hp
  unfold Final1.candidates at hp
  rw [List.mem_filterMap] at hp
  obtain ⟨q, hq, hout⟩ := hp
  by_cases ha : q.2.can_attack
  · rw [if_pos ha] at hout
    simp only at hout
    by_cases hf : 0 < flowAt (maxFlowDict g s t) q.1
    · rw [if_pos hf] at hout
      have hpq : p = (q.1, q.2.capacity, flowAt (maxFlowDict g s t) q.1) := by
        injection hout with h
        exact h.symm
      rw [hpq]
      have hmem : (q.1, q.2) ∈ g.edges := hq
      have hcd : g.getCapD q.1 0 = q.2.capacity := getCapD_eq_of_mem 0 hnd hmem
      refine ⟨hcd, ?_⟩
      have := flowAt_pos_cap hnd hf
      rwa [hcd] at this
    · rw [if_neg hf] at hout
      cases hout
  · rw [if_neg ha] at hout
    cases hout

theorem candidates1_keys_nodup {g : FlowGraph} (s t : Node) (hnd : g.keys.Nodup) :
    ((Final1.sortedCandidates g (maxFlowDict g s t)).map Prod.fst).Nodup := by
  have hperm :
      ((Final1.sortedCandidates g (maxFlowDict g s t)).map Prod.fst).Perm
        ((Final1.candidates g (maxFlowDict g s t)).map Prod.fst) :=
    ((sortLe_perm _ _).map Prod.fst)
  rw [hperm.nodup_iff]
  have hsub : ((Final1.candidates g (maxFlowDict g s t)).map Prod.fst).Sublist
      (g.edges.map Prod.fst) := by
    apply map_fst_filterMap_sublist
    intro a b hab
    by_cases ha : a.2.can_attack
    · rw [if_pos ha] at hab
      simp only at hab
      by_cases hf : 0 < flowAt (maxFlowDict g s t) a.1
      · rw [if_pos hf] at hab
        injection hab with h
        rw [← h]
      · rw [if_neg hf] at hab
        cases hab
    · rw [if_neg ha] at hab
      cases hab
  exact hsub.nodup hnd

end FlowUA

namespace FlowUA

/- ---------- equations of the greedy loops ---------- -/

theorem budgetLoopF_nil (budget : Int) (g : FlowGraph) (total : Int) :
    Final.budgetLoop budget [] g total = (g, total, []) := rfl

theorem budgetLoopF_cons_stop {budget total : Int} (e : Edge) (cap : Int)
    (rest : List (Edge × Int)) (g : FlowGraph) (h : budget ≤ total) :
    Final.budgetLoop budget ((e, cap) :: rest) g total = (g, total, []) := by
  unfold Final.budgetLoop
  rw [if_pos h]

theorem budgetLoopF_cons_go {budget total : Int} (e : Edge) (cap : Int)
    (rest : List (Edge × Int)) (g : FlowGraph) (h : ¬budget ≤ total) :
    Final.budgetLoop budget ((e, cap) :: rest) g total =
      ((Final.budgetLoop budget rest
          (g.setCap e (max 1 (cap - min (cap - 1) (budget - total))))
          (total + min (cap - 1) (budget - total))).1,
       (Final.budgetLoop budget rest
          (g.setCap e (max 1 (cap - min (cap - 1) (budget - total))))
          (total + min (cap - 1) (budget - total))).2.1,
       (e, min (cap - 1) (budget - total)) ::
       (Final.budgetLoop budget rest
          (g.setCap e (max 1 (cap - min (cap - 1) (budget - total))))
          (total + min (cap - 1) (budget - total))).2.2) := by
  conv_lhs => unfold Final.budgetLoop
  rw [if_neg h]

theorem budgetLoop1_nil (budget : Int) (g : FlowGraph) (total : Int) :
    Final1.budgetLoop budget [] g total = (g, total) := rfl

theorem budgetLoop1_cons_stop {budget total : Int} (e : Edge) (cap fl : Int)
    (rest : List (Edge × Int × Int)) (g : FlowGraph) (h : budget ≤ total) :
    Final1.budgetLoop budget ((e, cap, fl) :: rest) g total = (g, total) := by
  unfold Final1.budgetLoop
  rw [if_pos h]

theorem budgetLoop1_cons_skip {budget total : Int} (e : Edge) (cap fl : Int)
    (rest : List (Edge × Int × Int)) (g : FlowGraph) (h : ¬budget ≤ total)
    (h2 : cap - 1 ≤ 0) :
    Final1.budgetLoop budget ((e, cap, fl) :: rest) g total =
      Final1.budgetLoop budget rest g total := by
  conv_lhs => unfold Final1.budgetLoop
  rw [if_neg h, if_pos h2]

theorem budgetLoop1_cons_go {budget total : Int} (e : Edge) (cap fl : Int)
    (rest : List (Edge × Int × Int)) (g : FlowGraph) (h : ¬budget ≤ total)
    (h2 : ¬cap - 1 ≤ 0) :
    Final1.budgetLoop budget ((e, cap, fl) :: rest) g total =
      Final1.budgetLoop budget rest
        (g.setCap e (max 1 (g.getCapD e 1 - min (cap - 1) (budget - total))))
        (total + min (cap - 1) (budget - total)) := by
  conv_lhs => unfold Final1.budgetLoop
  rw [if_neg h, if_neg h2]

/- ---------- the greedy loops only lower capacities ---------- -/

theorem budgetLoopF_capsLE (budget : Int) :
    ∀ (cands : List (Edge × Int)) (g : FlowGraph) (total : Int),
      g.keys.Nodup → ((cands.map Prod.fst).Nodup) →
      (∀ p ∈ cands, g.getCapD p.1 0 = p.2 ∧ 1 ≤ p.2) →
      capsLE (Final.budgetLoop budget cands g total).1 g := by
  intro cands
  induction cands with
  | nil =>
    intro g total _ _ _
    rw [budgetLoopF_nil]
    exact capsLE_refl g
  | cons pc rest ih =>
    intro g total hgnd hcnd hpre
    obtain ⟨e, cap⟩ := pc
    by_cases hbt : budget ≤ total
    · rw [budgetLoopF_cons_stop e cap rest g hbt]
      exact capsLE_refl g
    · rw [budgetLoopF_cons_go e cap rest g hbt]
      have hcap := hpre (e, cap) (List.mem_cons_self _ _)
      have h1cap : (1 : Int) ≤ cap := hcap.2
      rw [List.map_cons, List.nodup_cons] at hcnd
      have hle1 : capsLE (g.setCap e (max 1 (cap - min (cap - 1) (budget - total)))) g := by
        apply capsLE_setCap
        intro ed hed
        have hcd := getCapD_eq_of_mem 0 hgnd hed
        have hede : ed.capacity = cap := by rw [← hcd, hcap.1]
        omega
      refine capsLE_trans ?_ hle1
      apply ih _ (total + min (cap - 1) (budget - total))
      · rw [keys_setCap]
        exact hgnd
      · exact hcnd.2
      · intro p hp
        have hne : p.1 ≠ e := by
          intro hq
          exact hcnd.1 (hq ▸ List.mem_map.mpr ⟨p, hp, rfl⟩)
        rw [getCapD_setCap_ne _ _ _ hne]
        exact hpre p (List.mem_cons_of_mem _ hp)

theorem budgetLoop1_capsLE (budget : Int) :
    ∀ (cands : List (Edge × Int × Int)) (g : FlowGraph) (total : Int),
      g.keys.Nodup → ((cands.map Prod.fst).Nodup) →
      (∀ p ∈ cands, g.getCapD p.1 0 = p.2.1 ∧ 1 ≤ p.2.1) →
      capsLE (Final1.budgetLoop budget cands g total).1 g := by
  intro cands
  induction cands with
  | nil =>
    intro g total _ _ _
    rw [budgetLoop1_nil]
    exact capsLE_refl g
  | cons pc rest ih =>
    intro g total hgnd hcnd hpre
    obtain ⟨e, cap, fl⟩ := pc
    rw [List.map_cons, List.nodup_cons] at hcnd
    by_cases hbt : budget ≤ total
    · rw [budgetLoop1_cons_stop e cap fl rest g hbt]
      exact capsLE_refl g
    · by_cases hr : cap - 1 ≤ 0
      · rw [budgetLoop1_cons_skip e cap fl rest g hbt hr]
        exact ih g total hgnd hcnd.2 (fun p hp => hpre p (List.mem_cons_of_mem _ hp))
      · rw [budgetLoop1_cons_go e cap fl rest g hbt hr]
        have hcap := hpre (e, cap, fl) (List.mem_cons_self _ _)
        have h1cap : (1 : Int) ≤ cap := hcap.2
        have hk : e ∈ g.keys := by
          apply mem_keys_of_getCapD_ne
          rw [hcap.1]
          omega
        have hdef : g.getCapD e 1 = g.getCapD e 0 := getCapD_default_irrel hk 1 0
        have hle1 : capsLE
            (g.setCap e (max 1 (g.getCapD e 1 - min (cap - 1) (budget - total)))) g := by
          apply capsLE_setCap
          intro ed hed
          have hcd := getCapD_eq_of_mem 0 hgnd hed
          have hede : ed.capacity = cap := by rw [← hcd, hcap.1]
          have hg1 : g.getCapD e 1 = cap := by rw [hdef, hcap.1]
          omega
        refine capsLE_trans ?_ hle1
        apply ih _ (total + min (cap - 1) (budget - total))
        · rw [keys_setCap]
          exact hgnd
        · exact hcnd.2
        · intro p hp
          have hne : p.1 ≠ e := by
            intro hq
            exact hcnd.1 (hq ▸ List.mem_map.mpr ⟨p, hp, rfl⟩)
          rw [getCapD_setCap_ne _ _ _ hne]
          exact hpre p (List.mem_cons_of_mem _ hp)

/- ---------- C1 ---------- -/

/-- C1: for every graph, source, sink and budget ≥ 0, a `budgeted_attack`
invocation (both the Final.py and the Final1.py variant) returns
`flowAfter ≤ flowBefore`: the attack only reduces capacities, and a pointwise
capacity reduction cannot increase the max-flow value. The graph invariant (at
most one edge per ordered pair) is the `keys.Nodup` hypothesis. -/
theorem C1_budgeted_attack_flow_monotone (g : FlowGraph) (s t : Node) (budget : Int)
    (hb : 0 ≤ budget) (hnd : g.keys.Nodup) :
    (Final.budgeted_attack g s t budget).flowAfter ≤
      (Final.budgeted_attack g s t budget).flowBefore ∧
    (Final1.budgeted_attack g s t budget).2.1 ≤ (Final1.budgeted_attack g s t budget).1 := by
  constructor
  · show maxFlowValue (Final.budgetLoop budget (Final.candidates g (maxFlowDict g s t)) g 0).1 s t
      ≤ maxFlowValue g s t
    exact maxFlowValue_mono s t
      (budgetLoopF_capsLE budget _ g 0 hnd (candidatesF_keys_nodup s t hnd) (candidatesF_spec hnd))
  · show maxFlowValue
        (Final1.budgetLoop budget (Final1.sortedCandidates g (maxFlowDict g s t)) g 0).1 s t
      ≤ maxFlowValue g s t
    exact maxFlowValue_mono s t
      (budgetLoop1_capsLE budget _ g 0 hnd (candidates1_keys_nodup s t hnd) (candidates1_spec hnd))

/-- Witness for C1 at the concrete chain with budget 3. -/
theorem C1_budgeted_attack_flow_monotone_witness :
    (0 : Int) ≤ 3 ∧ gW.keys.Nodup ∧
    ((Final.budgeted_attack gW "N1" "N3" 3).flowAfter ≤
       (Final.budgeted_attack gW "N1" "N3" 3).flowBefore ∧
     (Final1.budgeted_attack gW "N1" "N3" 3).2.1 ≤ (Final1.budgeted_attack gW "N1" "N3" 3).1) :=
  ⟨by norm_num, by decide, C1_budgeted_attack_flow_monotone gW "N1" "N3" 3 (by norm_num) (by decide)⟩

end FlowUA

namespace FlowUA

/- ---------- C3: budget conservation of the greedy loop ---------- -/

theorem budgetLoopF_sum (budget : Int) :
    ∀ (cands : List (Edge × Int)) (g : FlowGraph) (total : Int),
      total ≤ budget →
      (∀ p ∈ cands, 1 ≤ p.2) →
      ((Final.budgetLoop budget cands g total).2.1
         = total + ((Final.budgetLoop budget cands g total).2.2.map Prod.snd).sum) ∧
      total ≤ (Final.budgetLoop budget cands g total).2.1 ∧
      (Final.budgetLoop budget cands g total).2.1 ≤ budget ∧
      ((Final.budgetLoop budget cands g total).2.1 = budget ∨
        (Final.budgetLoop budget cands g total).2.2
          = cands.map (fun p => (p.1, p.2 - 1))) := by
  intro cands
  induction cands with
  | nil =>
    intro g total htb _
    rw [budgetLoopF_nil]
    refine ⟨by simp, le_refl total, htb, Or.inr (by simp)⟩
  | cons pc rest ih =>
    intro g total htb hcaps
    obtain ⟨e, cap⟩ := pc
    by_cases hbt : budget ≤ total
    · rw [budgetLoopF_cons_stop e cap rest g hbt]
      have : total = budget := le_antisymm htb hbt
      exact ⟨by simp, le_refl total, htb, Or.inl this⟩
    · rw [budgetLoopF_cons_go e cap rest g hbt]
      dsimp only
      have h1cap : (1 : Int) ≤ cap := hcaps (e, cap) (List.mem_cons_self _ _)
      have hred0 : 0 ≤ min (cap - 1) (budget - total) := by omega
      have htb' : total + min (cap - 1) (budget - total) ≤ budget := by omega
      obtain ⟨ihEq, ihMono, ihLe, ihDisj⟩ :=
        ih (g.setCap e (max 1 (cap - min (cap - 1) (budget - total))))
          (total + min (cap - 1) (budget - total)) htb'
          (fun p hp => hcaps p (List.mem_cons_of_mem _ hp))
      refine ⟨?_, ?_, ihLe, ?_⟩
      · rw [List.map_cons, List.sum_cons]
        omega
      · omega
      · rcases ihDisj with h | h
        · exact Or.inl h
        · by_cases hfull : min (cap - 1) (budget - total) = cap - 1
          · right
            rw [List.map_cons, h, hfull]
          · left
            have : min (cap - 1) (budget - total) = budget - total := by omega
            omega

/-- C3: in a Final.py `budgeted_attack` invocation with budget ≥ 0, the sum of
the per-edge reduction amounts over the returned `affected_edges` is at most
`budget`, and it equals `budget` unless the loop ran through the whole
candidate list taking each candidate's full reducible amount `capacity - 1`. -/
theorem C3_budget_conservation (g : FlowGraph) (s t : Node) (budget : Int)
    (hb : 0 ≤ budget) (hnd : g.keys.Nodup) :
    (((Final.budgeted_attack g s t budget).affected.map Prod.snd).sum ≤ budget) ∧
    ((((Final.budgeted_attack g s t budget).affected.map Prod.snd).sum = budget) ∨
      (Final.budgeted_attack g s t budget).affected
        = (Final.candidates g (maxFlowDict g s t)).map (fun p => (p.1, p.2 - 1))) := by
  have hcands := candidatesF_spec (s := s) (t := t) hnd
  obtain ⟨hEq, hMono, hLe, hDisj⟩ :=
    budgetLoopF_sum budget (Final.candidates g (maxFlowDict g s t)) g 0 hb
      (fun p hp => (hcands p hp).2)
  constructor
  · show ((Final.budgetLoop budget (Final.candidates g (maxFlowDict g s t)) g 0).2.2.map
        Prod.snd).sum ≤ budget
    omega
  · rcases hDisj with h | h
    · left
      show ((Final.budgetLoop budget (Final.candidates g (maxFlowDict g s t)) g 0).2.2.map
          Prod.snd).sum = budget
      omega
    · right
      exact h

/-- Witness for C3 at the concrete chain with budget 3. -/
theorem C3_budget_conservation_witness :
    (0 : Int) ≤ 3 ∧ gW.keys.Nodup ∧
    ((((Final.budgeted_attack gW "N1" "N3" 3).affected.map Prod.snd).sum ≤ 3) ∧
     ((((Final.budgeted_attack gW "N1" "N3" 3).affected.map Prod.snd).sum = 3) ∨
       (Final.budgeted_attack gW "N1" "N3" 3).affected
         = (Final.candidates gW (maxFlowDict gW "N1" "N3")).map (fun p => (p.1, p.2 - 1)))) :=
  ⟨by norm_num, by decide, C3_budget_conservation gW "N1" "N3" 3 (by norm_num) (by decide)⟩

end FlowUA

namespace FlowUA

/- ---------- C2: capacity floor is preserved by every attack ---------- -/

theorem budgetLoopF_capsGE1 (budget : Int) :
    ∀ (cands : List (Edge × Int)) (g : FlowGraph) (total : Int),
      capsGE1 g → capsGE1 (Final.budgetLoop budget cands g total).1 := by
  intro cands
  induction cands with
  | nil =>
    intro g total hc
    rw [budgetLoopF_nil]
    exact hc
  | cons pc rest ih =>
    intro g total hc
    obtain ⟨e, cap⟩ := pc
    by_cases hbt : budget ≤ total
    · rw [budgetLoopF_cons_stop e cap rest g hbt]
      exact hc
    · rw [budgetLoopF_cons_go e cap rest g hbt]
      exact ih _ _ (capsGE1_setCap e hc (le_max_left 1 _))

theorem budgetLoop1_capsGE1 (budget : Int) :
    ∀ (cands : List (Edge × Int × Int)) (g : FlowGraph) (total : Int),
      capsGE1 g → capsGE1 (Final1.budgetLoop budget cands g total).1 := by
  intro cands
  induction cands with
  | nil =>
    intro g total hc
    rw [budgetLoop1_nil]
    exact hc
  | cons pc rest ih =>
    intro g total hc
    obtain ⟨e, cap, fl⟩ := pc
    by_cases hbt : budget ≤ total
    · rw [budgetLoop1_cons_stop e cap fl rest g hbt]
      exact hc
    · by_cases hr : cap - 1 ≤ 0
      · rw [budgetLoop1_cons_skip e cap fl rest g hbt hr]
        exact ih g total hc
      · rw [budgetLoop1_cons_go e cap fl rest g hbt hr]
        exact ih _ _ (capsGE1_setCap e hc (le_max_left 1 _))

theorem halveStepF_capsGE1 (st : FlowGraph × List (Edge × Int)) (e : Edge)
    (hc : capsGE1 st.1) : capsGE1 (Final.halveStep st e).1 := by
  unfold Final.halveStep
  by_cases h : st.1.hasEdge e
  · rw [if_pos h]
    exact capsGE1_setCap e hc (le_max_left 1 _)
  · rw [if_neg h]
    exact hc

theorem halveStepF_keys (st : FlowGraph × List (Edge × Int)) (e : Edge) :
    (Final.halveStep st e).1.keys = st.1.keys := by
  unfold Final.halveStep
  by_cases h : st.1.hasEdge e
  · rw [if_pos h]
    exact keys_setCap _ _ _
  · rw [if_neg h]

theorem foldl_halveStepF (top : List (Edge × Int)) :
    ∀ st : FlowGraph × List (Edge × Int),
      (capsGE1 st.1 → capsGE1 ((top.foldl (fun acc p => Final.halveStep acc p.1) st)).1) ∧
      ((top.foldl (fun acc p => Final.halveStep acc p.1) st)).1.keys = st.1.keys := by
  induction top with
  | nil => intro st; exact ⟨fun h => h, rfl⟩
  | cons p rest ih =>
    intro st
    rw [List.foldl_cons]
    refine ⟨fun h => (ih _).1 (halveStepF_capsGE1 st p.1 h), ?_⟩
    rw [(ih _).2, halveStepF_keys]

theorem roundStepF_capsGE1 (s t : Node) (infoFlow : Bool) (eps : Nat)
    (st : FlowGraph × List (Edge × Int)) (hc : capsGE1 st.1) :
    capsGE1 ((Final.roundStep s t infoFlow eps st)).1 := by
  unfold Final.roundStep
  exact (foldl_halveStepF _ st).1 hc

theorem roundStepF_keys (s t : Node) (infoFlow : Bool) (eps : Nat)
    (st : FlowGraph × List (Edge × Int)) :
    ((Final.roundStep s t infoFlow eps st)).1.keys = st.1.keys := by
  unfold Final.roundStep
  exact (foldl_halveStepF _ st).2

theorem iterate_roundStepF (s t : Node) (infoFlow : Bool) (eps : Nat) (n : Nat) :
    ∀ st : FlowGraph × List (Edge × Int),
      (capsGE1 st.1 → capsGE1 (((Final.roundStep s t infoFlow eps)^[n] st)).1) ∧
      (((Final.roundStep s t infoFlow eps)^[n] st)).1.keys = st.1.keys := by
  induction n with
  | zero => intro st; exact ⟨fun h => h, rfl⟩
  | succ k ih =>
    intro st
    rw [Function.iterate_succ_apply]
    refine ⟨fun h => (ih _).1 (roundStepF_capsGE1 s t infoFlow eps st h), ?_⟩
    rw [(ih _).2, roundStepF_keys]

theorem halveStep1_capsGE1 (st : FlowGraph × Final1.RedMap) (e : Edge)
    (hc : capsGE1 st.1) : capsGE1 (Final1.halveStep st e).1 := by
  unfold Final1.halveStep
  by_cases h : st.1.getCapD e 0 - max 1 (Int.fdiv (st.1.getCapD e 0) 2) ≤ 0
  · rw [if_pos h]
    exact hc
  · rw [if_neg h]
    exact capsGE1_setCap e hc (le_max_left 1 _)

theorem halveStep1_keys (st : FlowGraph × Final1.RedMap) (e : Edge) :
    (Final1.halveStep st e).1.keys = st.1.keys := by
  unfold Final1.halveStep
  by_cases h : st.1.getCapD e 0 - max 1 (Int.fdiv (st.1.getCapD e 0) 2) ≤ 0
  · rw [if_pos h]
  · rw [if_neg h]
    exact keys_setCap _ _ _

theorem foldl_halveStep1 (top : List (Edge × Int)) :
    ∀ st : FlowGraph × Final1.RedMap,
      (capsGE1 st.1 → capsGE1 ((top.foldl (fun acc p => Final1.halveStep acc p.1) st)).1) ∧
      ((top.foldl (fun acc p => Final1.halveStep acc p.1) st)).1.keys = st.1.keys := by
  induction top with
  | nil => intro st; exact ⟨fun h => h, rfl⟩
  | cons p rest ih =>
    intro st
    rw [List.foldl_cons]
    refine ⟨fun h => (ih _).1 (halveStep1_capsGE1 st p.1 h), ?_⟩
    rw [(ih _).2, halveStep1_keys]

theorem roundStep1_capsGE1 (s t : Node) (infoFlow : Bool) (eps : Nat)
    (st : FlowGraph × Final1.RedMap) (hc : capsGE1 st.1) :
    capsGE1 ((Final1.roundStep s t infoFlow eps st)).1 := by
  unfold Final1.roundStep
  exact (foldl_halveStep1 _ st).1 hc

theorem roundStep1_keys (s t : Node) (infoFlow : Bool) (eps : Nat)
    (st : FlowGraph × Final1.RedMap) :
    ((Final1.roundStep s t infoFlow eps st)).1.keys = st.1.keys := by
  unfold Final1.roundStep
  exact (foldl_halveStep1 _ st).2

theorem iterate_roundStep1 (s t : Node) (infoFlow : Bool) (eps : Nat) (n : Nat) :
    ∀ st : FlowGraph × Final1.RedMap,
      (capsGE1 st.1 → capsGE1 (((Final1.roundStep s t infoFlow eps)^[n] st)).1) ∧
      (((Final1.roundStep s t infoFlow eps)^[n] st)).1.keys = st.1.keys := by
  induction n with
  | zero => intro st; exact ⟨fun h => h, rfl⟩
  | succ k ih =>
    intro st
    rw [Function.iterate_succ_apply]
    refine ⟨fun h => (ih _).1 (roundStep1_capsGE1 s t infoFlow eps st h), ?_⟩
    rw [(ih _).2, roundStep1_keys]

theorem commitF_capsGE1 (gc : FlowGraph) (hgc : capsGE1 gc) :
    ∀ (aff : List (Edge × Int)) (h : FlowGraph),
      capsGE1 h → h.keys = gc.keys →
      capsGE1 (aff.foldl
        (fun h p => if h.hasEdge p.1 then h.setCap p.1 (gc.getCapD p.1 0) else h) h) := by
  intro aff
  induction aff with
  | nil => intro h hc _; exact hc
  | cons p rest ih =>
    intro h hc hk
    rw [List.foldl_cons]
    by_cases hh : h.hasEdge p.1
    · rw [if_pos hh]
      refine ih _ ?_ ?_
      · refine capsGE1_setCap p.1 hc ?_
        refine getCapD_ge_one 0 hgc ?_
        rw [← hk]
        exact hasEdge_iff.mp hh
      · rw [keys_setCap]
        exact hk
    · rw [if_neg hh]
      exact ih _ hc hk

theorem commit1_foldl_capsGE1 (g : FlowGraph) (m : Final1.RedMap) :
    ∀ h : FlowGraph, capsGE1 h →
      capsGE1 (m.foldl (fun h p => h.setCap p.1 (max 1 (g.getCapD p.1 0 - p.2))) h) := by
  induction m with
  | nil => intro h hc; exact hc
  | cons q rest ih =>
    intro h hc
    rw [List.foldl_cons]
    exact ih _ (capsGE1_setCap q.1 hc (le_max_left 1 _))

theorem commit1_capsGE1 (g : FlowGraph) (m : Final1.RedMap) (hg : capsGE1 g) :
    capsGE1 (Final1.commit g m) :=
  commit1_foldl_capsGE1 g m g hg

end FlowUA

namespace FlowUA

theorem applyOp_capsGE1 (g : FlowGraph) (op : AttackOp) (hc : capsGE1 g) :
    capsGE1 (applyOp g op) := by
  cases op with
  | budgF s t b =>
    show capsGE1 (Final.budgetLoop b (Final.candidates g (maxFlowDict g s t)) g 0).1
    exact budgetLoopF_capsGE1 b _ g 0 hc
  | budg1 s t b =>
    show capsGE1 (Final1.budgetLoop b (Final1.sortedCandidates g (maxFlowDict g s t)) g 0).1
    exact budgetLoop1_capsGE1 b _ g 0 hc
  | multiF s t i steps eps =>
    show capsGE1 ((((Final.roundStep s t i eps)^[steps] (g, [])).2).foldl
      (fun h p => if h.hasEdge p.1
        then h.setCap p.1 ((((Final.roundStep s t i eps)^[steps] (g, [])).1).getCapD p.1 0)
        else h) g)
    exact commitF_capsGE1 _ ((iterate_roundStepF s t i eps steps (g, [])).1 hc) _ g hc
      ((iterate_roundStepF s t i eps steps (g, [])).2).symm
  | multi1 s t i steps eps =>
    show capsGE1 (Final1.commit g (((Final1.roundStep s t i eps)^[steps] (g, [])).2))
    exact commit1_capsGE1 g _ hc

/-- C2: for every edge present in the graph, after any sequence of attack
operations (budgeted reductions from Final.py and Final1.py, multi-step
halvings and final commits from both variants), the edge's capacity remains
at least 1, provided every capacity was at least 1 to begin with (which
`_ensure_capacity` establishes at construction time). -/
theorem C2_capacity_floor (g : FlowGraph) (ops : List AttackOp) (hc : capsGE1 g) :
    capsGE1 (applyOps g ops) := by
  unfold applyOps
  induction ops generalizing g with
  | nil => exact hc
  | cons op rest ih =>
    rw [List.foldl_cons]
    exact ih _ (applyOp_capsGE1 g op hc)

/-- Witness for C2 at the concrete chain under a four-attack sequence. -/
theorem C2_capacity_floor_witness :
    capsGE1 gW ∧ capsGE1 (applyOps gW opsW) :=
  ⟨by decide, C2_capacity_floor gW opsW (by decide)⟩

end FlowUA

namespace FlowUA

/- ---------- C7: candidate selection and ranking of Final1 budgeted_attack ---------- -/

theorem keyGE_trans (a b c : Edge × Int × Int) (h1 : Final1.keyGE a b = true)
    (h2 : Final1.keyGE b c = true) : Final1.keyGE a c = true := by
  unfold Final1.keyGE at h1 h2 ⊢
  rw [decide_eq_true_eq] at h1 h2 ⊢
  omega

theorem keyGE_total (a b : Edge × Int × Int) :
    (Final1.keyGE a b || Final1.keyGE b a) = true := by
  unfold Final1.keyGE
  rw [Bool.or_eq_true, decide_eq_true_eq, decide_eq_true_eq]
  omega

theorem mem_candidates1_iff (g : FlowGraph) (d : List (Edge × Int)) (q : Edge × Int × Int) :
    q ∈ Final1.candidates g d ↔
      ∃ ed : EdgeData, (q.1, ed) ∈ g.edges ∧ ed.can_attack = true ∧
        0 < flowAt d q.1 ∧ q.2.1 = ed.capacity ∧ q.2.2 = flowAt d q.1 := by
  unfold Final1.candidates
  rw [List.mem_filterMap]
  constructor
  · rintro ⟨a, ha, hfa⟩
    by_cases hatk : a.2.can_attack
    · rw [if_pos hatk] at hfa
      simp only at hfa
      by_cases hf : 0 < flowAt d a.1
      · rw [if_pos hf] at hfa
        injection hfa with h
        refine ⟨a.2, ?_, hatk, ?_, ?_, ?_⟩
        · rw [← h]
          exact ha
        · rw [← h]
          exact hf
        · rw [← h]
        · rw [← h]
      · rw [if_neg hf] at hfa
        cases hfa
    · rw [if_neg hatk] at hfa
      cases hfa
  · rintro ⟨ed, hmem, hatk, hf, hcap, hfl⟩
    refine ⟨(q.1, ed), hmem, ?_⟩
    rw [if_pos hatk]
    simp only
    rw [if_pos hf]
    have : q = (q.1, q.2.1, q.2.2) := rfl
    rw [this, hcap, hfl]

/-- C7: in Final1.py `budgeted_attack`, the (sorted) candidate list contains
exactly the graph edges that carry strictly positive flow in the computed
flow assignment and have `can_attack = true` (each carrying its capacity and
flow amount), and the list is ranked by descending flow amount with ties
broken by descending capacity. -/
theorem C7_candidate_selection_and_ranking (g : FlowGraph) (s t : Node) :
    (∀ q : Edge × Int × Int,
      q ∈ Final1.sortedCandidates g (maxFlowDict g s t) ↔
        ∃ ed : EdgeData, (q.1, ed) ∈ g.edges ∧ ed.can_attack = true ∧
          0 < flowAt (maxFlowDict g s t) q.1 ∧
          q.2.1 = ed.capacity ∧ q.2.2 = flowAt (maxFlowDict g s t) q.1) ∧
    List.Pairwise
      (fun a b : Edge × Int × Int =>
        b.2.2 < a.2.2 ∨ (a.2.2 = b.2.2 ∧ b.2.1 ≤ a.2.1))
      (Final1.sortedCandidates g (maxFlowDict g s t)) := by
  constructor
  · intro q
    unfold Final1.sortedCandidates
    rw [mem_sortLe]
    exact mem_candidates1_iff g (maxFlowDict g s t) q
  · have hs := sortLe_pairwise Final1.keyGE keyGE_trans keyGE_total
      (Final1.candidates g (maxFlowDict g s t))
    refine hs.imp ?_
    intro a b hab
    unfold Final1.keyGE at hab
    rwa [decide_eq_true_eq] at hab

end FlowUA

namespace FlowUA

/- ---------- cumulative reduction map (Final1) ---------- -/

theorem fdiv_two_eq (a : Int) : Int.fdiv a 2 = a / 2 := Int.fdiv_eq_ediv a (by norm_num)

theorem bumpfn_comp_fst (e : Edge) (r : Int) (e' : Edge) :
    ((fun p : Edge × Int => p.1 == e') ∘
      (fun p : Edge × Int => if p.1 = e then (p.1, p.2 + r) else p))
    = fun p : Edge × Int => p.1 == e' := by
  funext p
  by_cases hp : p.1 = e <;> simp [hp]

theorem find?_eq_none_of_any_false {m : Final1.RedMap} {e : Edge}
    (hany : ¬m.any (fun p => p.1 == e) = true) :
    m.find? (fun p => p.1 == e) = none := by
  rw [List.find?_eq_none]
  intro x hx hxe
  exact hany (List.any_eq_true.mpr ⟨x, hx, hxe⟩)

theorem lookup0_bump_self (m : Final1.RedMap) (e : Edge) (r : Int) :
    Final1.lookup0 (Final1.bump m e r) e = Final1.lookup0 m e + r := by
  unfold Final1.bump
  by_cases hany : m.any (fun p => p.1 == e) = true
  · rw [if_pos hany]
    unfold Final1.lookup0 Final1.lookupRed
    rw [List.find?_map, bumpfn_comp_fst]
    rw [List.any_eq_true] at hany
    obtain ⟨q0, hq0, hq0e⟩ := hany
    cases hfind : m.find? (fun p => p.1 == e) with
    | none =>
      rw [List.find?_eq_none] at hfind
      exact absurd hq0e (hfind q0 hq0)
    | some q =>
      have hqe : q.1 = e := by simpa using List.find?_some hfind
      simp [hqe]
  · rw [if_neg hany]
    unfold Final1.lookup0 Final1.lookupRed
    rw [List.find?_append, find?_eq_none_of_any_false hany]
    simp

theorem lookup0_bump_ne (m : Final1.RedMap) (e : Edge) (r : Int) {e' : Edge} (h : e' ≠ e) :
    Final1.lookup0 (Final1.bump m e r) e' = Final1.lookup0 m e' := by
  unfold Final1.bump
  by_cases hany : m.any (fun p => p.1 == e) = true
  · rw [if_pos hany]
    unfold Final1.lookup0 Final1.lookupRed
    rw [List.find?_map, bumpfn_comp_fst]
    cases hfind : m.find? (fun p => p.1 == e') with
    | none => simp
    | some q =>
      have hqe : q.1 = e' := by simpa using List.find?_some hfind
      have hne : ¬q.1 = e := by rw [hqe]; exact h
      simp [hne]
  · rw [if_neg hany]
    unfold Final1.lookup0 Final1.lookupRed
    rw [List.find?_append]
    cases hfind : m.find? (fun p => p.1 == e') with
    | some q => simp
    | none =>
      have : List.find? (fun p : Edge × Int => p.1 == e') [(e, r)] = none := by
        rw [List.find?_eq_none]
        intro x hx
        rw [List.mem_singleton] at hx
        rw [hx]
        simp
        exact fun hc => h hc.symm
      simp [this]

theorem lookupRed_bump_ne (m : Final1.RedMap) (e : Edge) (r : Int) {e' : Edge} (h : e' ≠ e) :
    Final1.lookupRed (Final1.bump m e r) e' = Final1.lookupRed m e' := by
  unfold Final1.bump
  by_cases hany : m.any (fun p => p.1 == e) = true
  · rw [if_pos hany]
    unfold Final1.lookupRed
    rw [List.find?_map, bumpfn_comp_fst]
    cases hfind : m.find? (fun p => p.1 == e') with
    | none => simp
    | some q =>
      have hqe : q.1 = e' := by simpa using List.find?_some hfind
      have hne : ¬q.1 = e := by rw [hqe]; exact h
      simp [hne]
  · rw [if_neg hany]
    unfold Final1.lookupRed
    rw [List.find?_append]
    cases hfind : m.find? (fun p => p.1 == e') with
    | some q => simp
    | none =>
      have : List.find? (fun p : Edge × Int => p.1 == e') [(e, r)] = none := by
        rw [List.find?_eq_none]
        intro x hx
        rw [List.mem_singleton] at hx
        rw [hx]
        simp
        exact fun hc => h hc.symm
      simp [this]

theorem bump_keys_cases (m : Final1.RedMap) (e : Edge) (r : Int) :
    (Final1.bump m e r).map Prod.fst = m.map Prod.fst ∨
    ((Final1.bump m e r).map Prod.fst = m.map Prod.fst ++ [e] ∧ e ∉ m.map Prod.fst) := by
  unfold Final1.bump
  by_cases hany : m.any (fun p => p.1 == e) = true
  · left
    rw [if_pos hany, List.map_map]
    apply List.map_congr_left
    intro p _
    by_cases hp : p.1 = e <;> simp [hp]
  · right
    rw [if_neg hany]
    refine ⟨by rw [List.map_append]; rfl, ?_⟩
    intro hc
    rw [List.mem_map] at hc
    obtain ⟨q, hq, hqe⟩ := hc
    exact hany (List.any_eq_true.mpr ⟨q, hq, by simp [hqe]⟩)

end FlowUA

namespace FlowUA

/- ---------- C5: per-round halving and accumulation (Final1) ---------- -/

theorem halveStep1_spec (gc : FlowGraph) (m : Final1.RedMap) (e : Edge)
    (h1 : 1 ≤ gc.getCapD e 0) :
    (Final1.halveStep (gc, m) e).1.getCapD e 0 = max 1 (Int.fdiv (gc.getCapD e 0) 2) ∧
    Final1.lookup0 (Final1.halveStep (gc, m) e).2 e
      = Final1.lookup0 m e + (gc.getCapD e 0 - max 1 (Int.fdiv (gc.getCapD e 0) 2)) ∧
    (∀ e' : Edge, e' ≠ e →
      (Final1.halveStep (gc, m) e).1.getCapD e' 0 = gc.getCapD e' 0 ∧
      Final1.lookup0 (Final1.halveStep (gc, m) e).2 e' = Final1.lookup0 m e') := by
  have hk : e ∈ gc.keys := mem_keys_of_getCapD_ne (by omega)
  unfold Final1.halveStep
  dsimp only
  by_cases hr : gc.getCapD e 0 - max 1 (Int.fdiv (gc.getCapD e 0) 2) ≤ 0
  · rw [if_pos hr]
    have heq : gc.getCapD e 0 = max 1 (Int.fdiv (gc.getCapD e 0) 2) := by
      rw [fdiv_two_eq] at hr ⊢
      omega
    refine ⟨heq, ?_, fun e' _ => ⟨rfl, rfl⟩⟩
    show Final1.lookup0 m e
      = Final1.lookup0 m e + (gc.getCapD e 0 - max 1 (Int.fdiv (gc.getCapD e 0) 2))
    omega
  · rw [if_neg hr]
    refine ⟨?_, lookup0_bump_self m e _, fun e' hne =>
      ⟨getCapD_setCap_ne _ _ _ hne, lookup0_bump_ne m e _ hne⟩⟩
    rw [getCapD_setCap_self, if_pos (hasEdge_iff.mpr hk)]

theorem foldl_halveStep1_spec :
    ∀ (top : List (Edge × Int)) (gc : FlowGraph) (m : Final1.RedMap),
      capsGE1 gc → ((top.map Prod.fst).Nodup) →
      (∀ e ∈ top.map Prod.fst, e ∈ gc.keys) →
      (∀ e ∈ top.map Prod.fst,
        (top.foldl (fun acc p => Final1.halveStep acc p.1) (gc, m)).1.getCapD e 0
          = max 1 (Int.fdiv (gc.getCapD e 0) 2) ∧
        Final1.lookup0 (top.foldl (fun acc p => Final1.halveStep acc p.1) (gc, m)).2 e
          = Final1.lookup0 m e + (gc.getCapD e 0 - max 1 (Int.fdiv (gc.getCapD e 0) 2))) ∧
      (∀ e : Edge, e ∉ top.map Prod.fst →
        (top.foldl (fun acc p => Final1.halveStep acc p.1) (gc, m)).1.getCapD e 0
          = gc.getCapD e 0 ∧
        Final1.lookup0 (top.foldl (fun acc p => Final1.halveStep acc p.1) (gc, m)).2 e
          = Final1.lookup0 m e) := by
  intro top
  induction top with
  | nil =>
    intro gc m _ _ _
    exact ⟨fun e he => absurd he (List.not_mem_nil e), fun e _ => ⟨rfl, rfl⟩⟩
  | cons p rest ih =>
    intro gc m hc hnd hsub
    rw [List.map_cons, List.nodup_cons] at hnd
    have hkp : p.1 ∈ gc.keys := hsub p.1 (by rw [List.map_cons]; exact List.mem_cons_self _ _)
    have h1p : 1 ≤ gc.getCapD p.1 0 := getCapD_ge_one 0 hc hkp
    obtain ⟨hcap1, hlk1, hother⟩ := halveStep1_spec gc m p.1 h1p
    rw [List.foldl_cons]
    have hkeys1 : (Final1.halveStep (gc, m) p.1).1.keys = gc.keys :=
      halveStep1_keys (gc, m) p.1
    obtain ⟨ihTop, ihOut⟩ := ih (Final1.halveStep (gc, m) p.1).1 (Final1.halveStep (gc, m) p.1).2
      (halveStep1_capsGE1 (gc, m) p.1 hc) hnd.2
      (fun e he => by
        rw [hkeys1]
        exact hsub e (by rw [List.map_cons]; exact List.mem_cons_of_mem _ he))
    constructor
    · intro e he
      rw [List.map_cons] at he
      rcases List.mem_cons.mp he with hep | her
      · have hnotr : e ∉ rest.map Prod.fst := by
          rw [hep]
          exact hnd.1
        obtain ⟨hc2, hl2⟩ := ihOut e hnotr
        rw [hc2, hl2, hep]
        exact ⟨hcap1, hlk1⟩
      · have hne : e ≠ p.1 := by
          intro hc'
          exact hnd.1 (hc' ▸ her)
        obtain ⟨hc3, hl3⟩ := hother e hne
        obtain ⟨hc4, hl4⟩ := ihTop e her
        rw [hc4, hl4, hc3, hl3]
        exact ⟨rfl, rfl⟩
    · intro e hne
      rw [List.map_cons, List.mem_cons] at hne
      push_neg at hne
      obtain ⟨hc3, hl3⟩ := hother e hne.1
      obtain ⟨hc4, hl4⟩ := ihOut e hne.2
      rw [hc4, hl4, hc3, hl3]
      exact ⟨rfl, rfl⟩

theorem stepCandidates1_key_mem (g : FlowGraph) (d : List (Edge × Int)) (infoFlow : Bool) :
    ∀ q ∈ Final1.stepCandidates g d infoFlow, q.1 ∈ g.keys := by
  intro q hq
  unfold Final1.stepCandidates at hq
  by_cases hi : infoFlow
  · rw [if_pos hi, List.mem_filterMap] at hq
    obtain ⟨a, ha, hfa⟩ := hq
    by_cases hatk : a.2.can_attack
    · rw [if_pos hatk] at hfa
      simp only at hfa
      by_cases hf : 0 < flowAt d a.1
      · rw [if_pos hf] at hfa
        injection hfa with h
        rw [← h]
        exact List.mem_map.mpr ⟨a, ha, rfl⟩
      · rw [if_neg hf] at hfa
        cases hfa
    · rw [if_neg hatk] at hfa
      cases hfa
  · rw [if_neg hi, List.mem_map] at hq
    obtain ⟨a, ha, haq⟩ := hq
    rw [← haq]
    exact List.mem_map.mpr ⟨a, (List.mem_filter.mp ha).1, rfl⟩

theorem stepCandidates1_keys_nodup (g : FlowGraph) (d : List (Edge × Int)) (infoFlow : Bool)
    (hnd : g.keys.Nodup) : ((Final1.stepCandidates g d infoFlow).map Prod.fst).Nodup := by
  unfold Final1.stepCandidates
  by_cases hi : infoFlow
  · rw [if_pos hi]
    refine List.Sublist.nodup ?_ hnd
    apply map_fst_filterMap_sublist
    intro a b hab
    by_cases hatk : a.2.can_attack
    · rw [if_pos hatk] at hab
      simp only at hab
      by_cases hf : 0 < flowAt d a.1
      · rw [if_pos hf] at hab
        injection hab with h
        rw [← h]
      · rw [if_neg hf] at hab
        cases hab
    · rw [if_neg hatk] at hab
      cases hab
  · rw [if_neg hi]
    refine List.Sublist.nodup ?_ hnd
    rw [List.map_map]
    have : ((g.edges.filter (fun p => p.2.can_attack)).map
        (Prod.fst ∘ (fun p : Edge × EdgeData => (p.1, p.2.capacity))))
        = ((g.edges.filter (fun p => p.2.can_attack)).map Prod.fst) :=
      List.map_congr_left (fun a _ => rfl)
    rw [this]
    exact (List.filter_sublist _).map Prod.fst

theorem topEdges1_key_mem (gc : FlowGraph) (s t : Node) (infoFlow : Bool) (eps : Nat) :
    ∀ e ∈ (Final1.topEdges gc s t infoFlow eps).map Prod.fst, e ∈ gc.keys := by
  intro e he
  rw [List.mem_map] at he
  obtain ⟨q, hq, hqe⟩ := he
  have hq2 : q ∈ sortLe (fun a b => decide (b.2 ≤ a.2))
      (Final1.stepCandidates gc (maxFlowDict gc s t) infoFlow) :=
    (List.take_sublist _ _).mem hq
  rw [mem_sortLe] at hq2
  rw [← hqe]
  exact stepCandidates1_key_mem gc (maxFlowDict gc s t) infoFlow q hq2

theorem topEdges1_keys_nodup (gc : FlowGraph) (s t : Node) (infoFlow : Bool) (eps : Nat)
    (hnd : gc.keys.Nodup) : ((Final1.topEdges gc s t infoFlow eps).map Prod.fst).Nodup := by
  have h1 : ((sortLe (fun a b => decide (b.2 ≤ a.2))
      (Final1.stepCandidates gc (maxFlowDict gc s t) infoFlow)).map Prod.fst).Nodup := by
    have hperm := (sortLe_perm (fun a b : Edge × Int => decide (b.2 ≤ a.2))
      (Final1.stepCandidates gc (maxFlowDict gc s t) infoFlow)).map Prod.fst
    rw [hperm.nodup_iff]
    exact stepCandidates1_keys_nodup gc (maxFlowDict gc s t) infoFlow hnd
  exact List.Sublist.nodup ((List.take_sublist _ _).map Prod.fst) h1

/-- C5: in every round of Final1.py `multi_step_attack`, each selected top
edge has its working-copy capacity set to `max(1, floor(oldCap / 2))` and its
entry in the cumulative per-edge reduction map increased by exactly the
per-round reduction (reductions from multiple rounds sum, they are not
overwritten), while unselected edges keep both their capacity and their
accumulated reduction. -/
theorem C5_round_halving_and_accumulation (s t : Node) (infoFlow : Bool) (eps : Nat)
    (gc : FlowGraph) (m : Final1.RedMap) (hnd : gc.keys.Nodup) (hc : capsGE1 gc) :
    (∀ e ∈ (Final1.topEdges gc s t infoFlow eps).map Prod.fst,
      (Final1.roundStep s t infoFlow eps (gc, m)).1.getCapD e 0
        = max 1 (Int.fdiv (gc.getCapD e 0) 2) ∧
      Final1.lookup0 (Final1.roundStep s t infoFlow eps (gc, m)).2 e
        = Final1.lookup0 m e + (gc.getCapD e 0 - max 1 (Int.fdiv (gc.getCapD e 0) 2))) ∧
    (∀ e : Edge, e ∉ (Final1.topEdges gc s t infoFlow eps).map Prod.fst →
      (Final1.roundStep s t infoFlow eps (gc, m)).1.getCapD e 0 = gc.getCapD e 0 ∧
      Final1.lookup0 (Final1.roundStep s t infoFlow eps (gc, m)).2 e = Final1.lookup0 m e) := by
  unfold Final1.roundStep
  exact foldl_halveStep1_spec (Final1.topEdges gc s t infoFlow eps) gc m hc
    (topEdges1_keys_nodup gc s t infoFlow eps hnd) (topEdges1_key_mem gc s t infoFlow eps)

/-- Witness for C5 at the concrete chain in flow mode with two edges per step. -/
theorem C5_round_halving_and_accumulation_witness :
    gW.keys.Nodup ∧ capsGE1 gW ∧
    ((∀ e ∈ (Final1.topEdges gW "N1" "N3" true 2).map Prod.fst,
      (Final1.roundStep "N1" "N3" true 2 (gW, [])).1.getCapD e 0
        = max 1 (Int.fdiv (gW.getCapD e 0) 2) ∧
      Final1.lookup0 (Final1.roundStep "N1" "N3" true 2 (gW, [])).2 e
        = Final1.lookup0 [] e + (gW.getCapD e 0 - max 1 (Int.fdiv (gW.getCapD e 0) 2))) ∧
    (∀ e : Edge, e ∉ (Final1.topEdges gW "N1" "N3" true 2).map Prod.fst →
      (Final1.roundStep "N1" "N3" true 2 (gW, [])).1.getCapD e 0 = gW.getCapD e 0 ∧
      Final1.lookup0 (Final1.roundStep "N1" "N3" true 2 (gW, [])).2 e = Final1.lookup0 [] e)) :=
  ⟨by decide, by decide,
   C5_round_halving_and_accumulation "N1" "N3" true 2 gW [] (by decide) (by decide)⟩

end FlowUA

namespace FlowUA

/- ---------- C6: the live graph is written exactly once, at commit ---------- -/

theorem lookupRed_none_iff (m : Final1.RedMap) (e : Edge) :
    Final1.lookupRed m e = none ↔ e ∉ m.map Prod.fst := by
  unfold Final1.lookupRed
  rw [Option.map_eq_none']
  rw [List.find?_eq_none]
  constructor
  · intro h hc
    rw [List.mem_map] at hc
    obtain ⟨q, hq, hqe⟩ := hc
    exact h q hq (by simp [hqe])
  · intro h q hq hqe
    rw [beq_iff_eq] at hqe
    exact h (List.mem_map.mpr ⟨q, hq, hqe⟩)

theorem lookupRed_some_mem {m : Final1.RedMap} {e : Edge} {r : Int}
    (h : Final1.lookupRed m e = some r) : (e, r) ∈ m := by
  unfold Final1.lookupRed at h
  cases hfind : m.find? (fun p => p.1 == e) with
  | none => rw [hfind] at h; cases h
  | some q =>
    rw [hfind] at h
    have hqe : q.1 = e := by simpa using List.find?_some hfind
    have hq2 : q.2 = r := by
      simpa using h
    have : q = (e, r) := by
      rw [← hqe, ← hq2]
    exact this ▸ List.mem_of_find?_eq_some hfind

theorem bump_keys_nodup (m : Final1.RedMap) (e : Edge) (r : Int)
    (h : (m.map Prod.fst).Nodup) : ((Final1.bump m e r).map Prod.fst).Nodup := by
  rcases bump_keys_cases m e r with hc | ⟨hc, hnot⟩
  · rw [hc]; exact h
  · rw [hc]
    exact h.append (List.nodup_singleton e)
      (fun a ha hb => by rw [List.mem_singleton] at hb; exact hnot (hb ▸ ha))

theorem halveStep1_cum (st : FlowGraph × Final1.RedMap) (e : Edge) :
    (Final1.halveStep st e).2 = st.2 ∨
    (Final1.halveStep st e).2
      = Final1.bump st.2 e (st.1.getCapD e 0 - max 1 (Int.fdiv (st.1.getCapD e 0) 2)) := by
  unfold Final1.halveStep
  by_cases h : st.1.getCapD e 0 - max 1 (Int.fdiv (st.1.getCapD e 0) 2) ≤ 0
  · rw [if_pos h]; exact Or.inl rfl
  · rw [if_neg h]; exact Or.inr rfl

theorem foldl_halveStep1_cumkeys (K : List Edge) (top : List (Edge × Int)) :
    ∀ st : FlowGraph × Final1.RedMap,
      st.1.keys = K →
      (∀ e ∈ top.map Prod.fst, e ∈ K) →
      (st.2.map Prod.fst).Nodup → (∀ k ∈ st.2.map Prod.fst, k ∈ K) →
      (((top.foldl (fun acc p => Final1.halveStep acc p.1) st).2.map Prod.fst).Nodup ∧
       (∀ k ∈ (top.foldl (fun acc p => Final1.halveStep acc p.1) st).2.map Prod.fst, k ∈ K)) := by
  induction top with
  | nil => intro st _ _ hnd hsub; exact ⟨hnd, hsub⟩
  | cons p rest ih =>
    intro st hkeys htop hnd hsub
    rw [List.foldl_cons]
    have hkeys1 : (Final1.halveStep st p.1).1.keys = K := by
      rw [halveStep1_keys]; exact hkeys
    have htop1 : ∀ e ∈ rest.map Prod.fst, e ∈ K := fun e he =>
      htop e (by rw [List.map_cons]; exact List.mem_cons_of_mem _ he)
    have hp1 : p.1 ∈ K := htop p.1 (by rw [List.map_cons]; exact List.mem_cons_self _ _)
    rcases halveStep1_cum st p.1 with hc | hc
    · exact ih _ hkeys1 htop1 (by rw [hc]; exact hnd) (by rw [hc]; exact hsub)
    · refine ih _ hkeys1 htop1 (by rw [hc]; exact bump_keys_nodup _ _ _ hnd) ?_
      rw [hc]
      intro k hk
      rcases bump_keys_cases st.2 p.1 (st.1.getCapD p.1 0 -
          max 1 (Int.fdiv (st.1.getCapD p.1 0) 2)) with hb | ⟨hb, -⟩
      · rw [hb] at hk; exact hsub k hk
      · rw [hb] at hk
        rcases List.mem_append.mp hk with h' | h'
        · exact hsub k h'
        · rw [List.mem_singleton] at h'
          exact h' ▸ hp1

theorem roundStep1_cumkeys (s t : Node) (infoFlow : Bool) (eps : Nat) (K : List Edge)
    (st : FlowGraph × Final1.RedMap) (hkeys : st.1.keys = K)
    (hnd : (st.2.map Prod.fst).Nodup) (hsub : ∀ k ∈ st.2.map Prod.fst, k ∈ K) :
    (((Final1.roundStep s t infoFlow eps st).2.map Prod.fst).Nodup ∧
     (∀ k ∈ (Final1.roundStep s t infoFlow eps st).2.map Prod.fst, k ∈ K)) := by
  unfold Final1.roundStep
  exact foldl_halveStep1_cumkeys K _ st hkeys
    (fun e he => hkeys ▸ topEdges1_key_mem st.1 s t infoFlow eps e he) hnd hsub

theorem iterate_round1_cumkeys (g : FlowGraph) (s t : Node) (infoFlow : Bool) (eps : Nat)
    (n : Nat) :
    ((((Final1.roundStep s t infoFlow eps)^[n] (g, ([] : Final1.RedMap))).2.map
        Prod.fst).Nodup ∧
     (∀ k ∈ (((Final1.roundStep s t infoFlow eps)^[n]
        (g, ([] : Final1.RedMap))).2.map Prod.fst), k ∈ g.keys)) := by
  induction n with
  | zero => exact ⟨List.nodup_nil, fun k hk => absurd hk (List.not_mem_nil k)⟩
  | succ k ih =>
    rw [Function.iterate_succ_apply']
    exact roundStep1_cumkeys s t infoFlow eps g.keys _
      ((iterate_roundStep1 s t infoFlow eps k (g, [])).2) ih.1 ih.2

theorem commit1_foldl_spec (g : FlowGraph) :
    ∀ (m : Final1.RedMap) (h : FlowGraph),
      (m.map Prod.fst).Nodup → (∀ k ∈ m.map Prod.fst, k ∈ h.keys) →
      ((m.foldl (fun h p => h.setCap p.1 (max 1 (g.getCapD p.1 0 - p.2))) h).keys = h.keys ∧
       (∀ e : Edge, e ∉ m.map Prod.fst →
         (m.foldl (fun h p => h.setCap p.1 (max 1 (g.getCapD p.1 0 - p.2))) h).getCapD e 0
           = h.getCapD e 0) ∧
       (∀ p ∈ m,
         (m.foldl (fun h p => h.setCap p.1 (max 1 (g.getCapD p.1 0 - p.2))) h).getCapD p.1 0
           = max 1 (g.getCapD p.1 0 - p.2))) := by
  intro m
  induction m with
  | nil =>
    intro h _ _
    exact ⟨rfl, fun e _ => rfl, fun p hp => absurd hp (List.not_mem_nil p)⟩
  | cons q rest ih =>
    intro h hnd hsub
    rw [List.map_cons, List.nodup_cons] at hnd
    have hq1 : q.1 ∈ h.keys := hsub q.1 (by rw [List.map_cons]; exact List.mem_cons_self _ _)
    rw [List.foldl_cons]
    obtain ⟨ihKeys, ihOut, ihIn⟩ := ih (h.setCap q.1 (max 1 (g.getCapD q.1 0 - q.2))) hnd.2
      (fun k hk => by
        rw [keys_setCap]
        exact hsub k (by rw [List.map_cons]; exact List.mem_cons_of_mem _ hk))
    refine ⟨by rw [ihKeys, keys_setCap], ?_, ?_⟩
    · intro e he
      rw [List.map_cons, List.mem_cons] at he
      push_neg at he
      rw [ihOut e he.2, getCapD_setCap_ne _ _ _ he.1]
    · intro p hp
      rcases List.mem_cons.mp hp with hpq | hpr
      · have : p.1 ∉ rest.map Prod.fst := by
          rw [hpq]
          exact hnd.1
        rw [ihOut p.1 this, hpq, getCapD_setCap_self, if_pos (hasEdge_iff.mpr hq1)]
      · exact ihIn p hpr

theorem commit1_spec (g : FlowGraph) (m : Final1.RedMap)
    (hnd : (m.map Prod.fst).Nodup) (hsub : ∀ k ∈ m.map Prod.fst, k ∈ g.keys) :
    (Final1.commit g m).keys = g.keys ∧
    (∀ e ∈ g.keys,
      (Final1.commit g m).getCapD e 0 =
        match Final1.lookupRed m e with
        | some r => max 1 (g.getCapD e 0 - r)
        | none => g.getCapD e 0) := by
  obtain ⟨hKeys, hOut, hIn⟩ := commit1_foldl_spec g m g hnd hsub
  refine ⟨hKeys, ?_⟩
  intro e _
  cases hfind : Final1.lookupRed m e with
  | none =>
    exact hOut e ((lookupRed_none_iff m e).mp hfind)
  | some r =>
    exact hIn (e, r) (lookupRed_some_mem hfind)

/-- C6: during the iterative rounds of a Final1.py `multi_step_attack`
invocation only the working copy and the cumulative map change; the caller's
live graph is produced by applying the accumulated reduction map exactly once
after all rounds: its key set is unchanged, the cumulative map holds each
edge at most once, and each edge's final live capacity is its original
capacity lowered once by its accumulated total (edges without an entry are
untouched). -/
theorem C6_live_graph_single_commit (g : FlowGraph) (s t : Node) (infoFlow : Bool)
    (steps eps : Nat) (hnd : g.keys.Nodup) :
    (((Final1.multi_step_attack g s t infoFlow steps eps).cum.map Prod.fst).Nodup) ∧
    ((Final1.multi_step_attack g s t infoFlow steps eps).live.keys = g.keys) ∧
    (∀ e ∈ g.keys,
      (Final1.multi_step_attack g s t infoFlow steps eps).live.getCapD e 0 =
        match Final1.lookupRed (Final1.multi_step_attack g s t infoFlow steps eps).cum e with
        | some r => max 1 (g.getCapD e 0 - r)
        | none => g.getCapD e 0) := by
  obtain ⟨hcnd, hcsub⟩ := iterate_round1_cumkeys g s t infoFlow eps steps
  obtain ⟨hKeys, hVal⟩ := commit1_spec g
    (((Final1.roundStep s t infoFlow eps)^[steps] (g, ([] : Final1.RedMap))).2) hcnd hcsub
  exact ⟨hcnd, hKeys, hVal⟩

/-- Witness for C6 at the concrete chain in flow mode, two rounds. -/
theorem C6_live_graph_single_commit_witness :
    gW.keys.Nodup ∧
    ((((Final1.multi_step_attack gW "N1" "N3" true 2 2).cum.map Prod.fst).Nodup) ∧
     ((Final1.multi_step_attack gW "N1" "N3" true 2 2).live.keys = gW.keys) ∧
     (∀ e ∈ gW.keys,
       (Final1.multi_step_attack gW "N1" "N3" true 2 2).live.getCapD e 0 =
         match Final1.lookupRed (Final1.multi_step_attack gW "N1" "N3" true 2 2).cum e with
         | some r => max 1 (gW.getCapD e 0 - r)
         | none => gW.getCapD e 0)) :=
  ⟨by decide, C6_live_graph_single_commit gW "N1" "N3" true 2 2 (by decide)⟩

end FlowUA

namespace FlowUA

/- ---------- C9: the commit clamp is a no-op; Final variant refinement ---------- -/

theorem roundStep1_invariant (s t : Node) (infoFlow : Bool) (eps : Nat)
    (st : FlowGraph × Final1.RedMap) (hnd : st.1.keys.Nodup) (hc : capsGE1 st.1) (e : Edge) :
    (Final1.roundStep s t infoFlow eps st).1.getCapD e 0
      + Final1.lookup0 (Final1.roundStep s t infoFlow eps st).2 e
    = st.1.getCapD e 0 + Final1.lookup0 st.2 e := by
  obtain ⟨hTop, hOut⟩ := foldl_halveStep1_spec (Final1.topEdges st.1 s t infoFlow eps)
    st.1 st.2 hc (topEdges1_keys_nodup st.1 s t infoFlow eps hnd)
    (topEdges1_key_mem st.1 s t infoFlow eps)
  by_cases he : e ∈ (Final1.topEdges st.1 s t infoFlow eps).map Prod.fst
  · obtain ⟨h1, h2⟩ := hTop e he
    unfold Final1.roundStep
    rw [h1, h2]
    omega
  · obtain ⟨h1, h2⟩ := hOut e he
    unfold Final1.roundStep
    rw [h1, h2]

theorem iterate_round1_invariant (g : FlowGraph) (s t : Node) (infoFlow : Bool) (eps : Nat)
    (hnd : g.keys.Nodup) (hc : capsGE1 g) (n : Nat) (e : Edge) :
    (((Final1.roundStep s t infoFlow eps)^[n] (g, ([] : Final1.RedMap))).1.getCapD e 0
      + Final1.lookup0 (((Final1.roundStep s t infoFlow eps)^[n]
          (g, ([] : Final1.RedMap))).2) e)
    = g.getCapD e 0 := by
  induction n with
  | zero =>
    show g.getCapD e 0 + Final1.lookup0 [] e = g.getCapD e 0
    have : Final1.lookup0 [] e = 0 := rfl
    omega
  | succ k ih =>
    rw [Function.iterate_succ_apply']
    rw [roundStep1_invariant s t infoFlow eps _
      (by rw [(iterate_roundStep1 s t infoFlow eps k (g, [])).2]; exact hnd)
      ((iterate_roundStep1 s t infoFlow eps k (g, [])).1 hc) e]
    exact ih

/-- Per-edge untouched invariant of the Final.py rounds: an edge never listed
in `affected_edges` still has its original working-copy capacity. -/
theorem halveStepF_untouched (g0 : FlowGraph) (st : FlowGraph × List (Edge × Int)) (e0 : Edge)
    (hP : ∀ e : Edge, e ∉ st.2.map Prod.fst → st.1.getCapD e 0 = g0.getCapD e 0) :
    ∀ e : Edge, e ∉ (Final.halveStep st e0).2.map Prod.fst →
      (Final.halveStep st e0).1.getCapD e 0 = g0.getCapD e 0 := by
  intro e he
  unfold Final.halveStep at he ⊢
  by_cases hh : st.1.hasEdge e0
  · rw [if_pos hh] at he ⊢
    rw [List.map_append, List.mem_append] at he
    push_neg at he
    have hne : e ≠ e0 := by
      intro hc
      exact he.2 (by rw [hc]; exact List.mem_singleton.mpr rfl)
    rw [getCapD_setCap_ne _ _ _ hne]
    exact hP e he.1
  · rw [if_neg hh] at he ⊢
    exact hP e he
  
theorem foldl_halveStepF_untouched (g0 : FlowGraph) (top : List (Edge × Int)) :
    ∀ st : FlowGraph × List (Edge × Int),
      (∀ e : Edge, e ∉ st.2.map Prod.fst → st.1.getCapD e 0 = g0.getCapD e 0) →
      ∀ e : Edge,
        e ∉ (top.foldl (fun acc p => Final.halveStep acc p.1) st).2.map Prod.fst →
        (top.foldl (fun acc p => Final.halveStep acc p.1) st).1.getCapD e 0
          = g0.getCapD e 0 := by
  induction top with
  | nil => intro st hP; exact hP
  | cons p rest ih =>
    intro st hP
    rw [List.foldl_cons]
    exact ih _ (halveStepF_untouched g0 st p.1 hP)

theorem iterate_roundStepF_untouched (g : FlowGraph) (s t : Node) (infoFlow : Bool)
    (eps : Nat) (n : Nat) :
    ∀ e : Edge,
      e ∉ (((Final.roundStep s t infoFlow eps)^[n] (g, [])).2.map Prod.fst) →
      (((Final.roundStep s t infoFlow eps)^[n] (g, [])).1.getCapD e 0) = g.getCapD e 0 := by
  induction n with
  | zero => intro e _; rfl
  | succ k ih =>
    rw [Function.iterate_succ_apply']
    unfold Final.roundStep
    exact foldl_halveStepF_untouched g _ _ ih

theorem commitF_foldl_spec (gc : FlowGraph) :
    ∀ (aff : List (Edge × Int)) (h : FlowGraph),
      h.keys = gc.keys →
      ((aff.foldl (fun h p => if h.hasEdge p.1 then h.setCap p.1 (gc.getCapD p.1 0) else h)
          h).keys = h.keys ∧
       (∀ e ∈ h.keys,
         (aff.foldl (fun h p => if h.hasEdge p.1 then h.setCap p.1 (gc.getCapD p.1 0) else h)
            h).getCapD e 0
           = if e ∈ aff.map Prod.fst then gc.getCapD e 0 else h.getCapD e 0)) := by
  intro aff
  induction aff with
  | nil =>
    intro h _
    refine ⟨rfl, fun e _ => ?_⟩
    simp
  | cons q rest ih =>
    intro h hk
    rw [List.foldl_cons]
    by_cases hh : h.hasEdge q.1
    · rw [if_pos hh]
      obtain ⟨ihKeys, ihVal⟩ := ih (h.setCap q.1 (gc.getCapD q.1 0)) (by rw [keys_setCap]; exact hk)
      refine ⟨by rw [ihKeys, keys_setCap], ?_⟩
      intro e he
      rw [ihVal e (by rw [keys_setCap]; exact he)]
      by_cases her : e ∈ rest.map Prod.fst
      · rw [if_pos her, if_pos (by rw [List.map_cons]; exact List.mem_cons_of_mem _ her)]
      · rw [if_neg her]
        by_cases heq : e = q.1
        · rw [if_pos (by rw [List.map_cons, heq]; exact List.mem_cons_self _ _)]
          rw [heq, getCapD_setCap_self, if_pos hh]
        · rw [if_neg (by rw [List.map_cons, List.mem_cons]; push_neg; exact ⟨heq, her⟩)]
          exact getCapD_setCap_ne _ _ _ heq
    · rw [if_neg hh]
      obtain ⟨ihKeys, ihVal⟩ := ih h hk
      refine ⟨ihKeys, ?_⟩
      intro e he
      rw [ihVal e he]
      have hne : e ≠ q.1 := by
        intro hc
        exact hh (hasEdge_iff.mpr (hc ▸ he))
      by_cases her : e ∈ rest.map Prod.fst
      · rw [if_pos her, if_pos (by rw [List.map_cons]; exact List.mem_cons_of_mem _ her)]
      · rw [if_neg her]
        rw [if_neg (by rw [List.map_cons, List.mem_cons]; push_neg; exact ⟨hne, her⟩)]

theorem caps_eq_of_lookCap :
    ∀ (l1 l2 : List (Edge × EdgeData)),
      l1.map Prod.fst = l2.map Prod.fst → (l1.map Prod.fst).Nodup →
      (∀ e ∈ l1.map Prod.fst, lookCap l1 e 0 = lookCap l2 e 0) →
      l1.map (fun p => p.2.capacity) = l2.map (fun p => p.2.capacity) := by
  intro l1
  induction l1 with
  | nil =>
    intro l2 hk _ _
    cases l2 with
    | nil => rfl
    | cons q r2 => cases hk
  | cons p r1 ih =>
    intro l2 hk hnd hval
    cases l2 with
    | nil => cases hk
    | cons q r2 =>
      rw [List.map_cons, List.map_cons] at hk
      injection hk with hk1 hk2
      rw [List.map_cons, List.nodup_cons] at hnd
      have hhead : p.2.capacity = q.2.capacity := by
        have := hval p.1 (by rw [List.map_cons]; exact List.mem_cons_self _ _)
        rw [lookCap_cons_pos r1 0 (by simp), lookCap_cons_pos r2 0 (by simp [hk1])] at this
        exact this
      rw [List.map_cons, List.map_cons, hhead]
      congr 1
      refine ih r2 hk2 hnd.2 ?_
      intro e he
      have hne : ¬(p.1 == e) = true := by
        rw [beq_iff_eq]
        intro hc
        exact hnd.1 (hc ▸ he)
      have hne2 : ¬(q.1 == e) = true := by
        rw [← hk1]
        exact hne
      have := hval e (by rw [List.map_cons]; exact List.mem_cons_of_mem _ he)
      rwa [lookCap_cons_neg r1 0 hne, lookCap_cons_neg r2 0 hne2] at this

theorem maxFlowValue_congr {g1 g2 : FlowGraph} (s t : Node) (hk : g1.keys = g2.keys)
    (hc : g1.caps = g2.caps) : maxFlowValue g1 s t = maxFlowValue g2 s t := by
  unfold maxFlowValue
  rw [hk, hc]

end FlowUA

namespace FlowUA

/-- C9: after a Final1.py `multi_step_attack` commits, the clamp
`max(1, caps_before[(u,v)] - total_reduction)` never changes the value: the
original capacity minus the accumulated reduction equals the working copy's
final capacity, which the halving rule keeps at least 1. Consequently, in the
Final.py variant the returned `flow_value_after` (computed on the working
copy) equals the max-flow of the mutated live graph. -/
theorem C9_commit_clamp_noop_and_refinement (g : FlowGraph) (s t : Node) (infoFlow : Bool)
    (steps eps : Nat) (hnd : g.keys.Nodup) (hc : capsGE1 g) :
    (∀ (e : Edge) (r : Int),
      Final1.lookupRed (Final1.multi_step_attack g s t infoFlow steps eps).cum e = some r →
        (g.getCapD e 0 - r
            = (Final1.multi_step_attack g s t infoFlow steps eps).copyG.getCapD e 0 ∧
         1 ≤ (Final1.multi_step_attack g s t infoFlow steps eps).copyG.getCapD e 0 ∧
         max 1 (g.getCapD e 0 - r) = g.getCapD e 0 - r)) ∧
    ((Final.multi_step_attack g s t infoFlow steps eps).flowAfter
      = maxFlowValue (Final.multi_step_attack g s t infoFlow steps eps).live s t) := by
  constructor
  · intro e r hfind
    have hcum : (Final1.multi_step_attack g s t infoFlow steps eps).cum
        = ((Final1.roundStep s t infoFlow eps)^[steps] (g, ([] : Final1.RedMap))).2 := rfl
    rw [hcum] at hfind
    show g.getCapD e 0 - r
        = (((Final1.roundStep s t infoFlow eps)^[steps]
            (g, ([] : Final1.RedMap))).1).getCapD e 0 ∧
      1 ≤ (((Final1.roundStep s t infoFlow eps)^[steps]
            (g, ([] : Final1.RedMap))).1).getCapD e 0 ∧
      max 1 (g.getCapD e 0 - r) = g.getCapD e 0 - r
    have hek : e ∈ g.keys := by
      apply (iterate_round1_cumkeys g s t infoFlow eps steps).2 e
      exact List.mem_map.mpr ⟨(e, r), lookupRed_some_mem hfind, rfl⟩
    have hinv := iterate_round1_invariant g s t infoFlow eps hnd hc steps e
    have hl0 : Final1.lookup0
        (((Final1.roundStep s t infoFlow eps)^[steps] (g, ([] : Final1.RedMap))).2) e = r := by
      unfold Final1.lookup0
      rw [hfind]
      rfl
    rw [hl0] at hinv
    have hge : 1 ≤ (((Final1.roundStep s t infoFlow eps)^[steps]
        (g, ([] : Final1.RedMap))).1).getCapD e 0 := by
      apply getCapD_ge_one 0 ((iterate_roundStep1 s t infoFlow eps steps (g, [])).1 hc)
      rw [(iterate_roundStep1 s t infoFlow eps steps (g, [])).2]
      exact hek
    exact ⟨by omega, hge, by omega⟩
  · have hkeysc : (((Final.roundStep s t infoFlow eps)^[steps]
        (g, ([] : List (Edge × Int)))).1).keys = g.keys :=
      (iterate_roundStepF s t infoFlow eps steps (g, [])).2
    obtain ⟨hlivekeys, hliveval⟩ := commitF_foldl_spec
      (((Final.roundStep s t infoFlow eps)^[steps] (g, ([] : List (Edge × Int)))).1)
      (((Final.roundStep s t infoFlow eps)^[steps] (g, ([] : List (Edge × Int)))).2)
      g hkeysc.symm
    show maxFlowValue (((Final.roundStep s t infoFlow eps)^[steps] (g, [])).1) s t
      = maxFlowValue ((((Final.roundStep s t infoFlow eps)^[steps] (g, [])).2).foldl
          (fun h p => if h.hasEdge p.1
            then h.setCap p.1 ((((Final.roundStep s t infoFlow eps)^[steps]
                (g, [])).1).getCapD p.1 0)
            else h) g) s t
    apply maxFlowValue_congr s t
    · rw [hlivekeys, hkeysc]
    · show (((Final.roundStep s t infoFlow eps)^[steps] (g, [])).1).edges.map
          (fun p => p.2.capacity)
        = ((((Final.roundStep s t infoFlow eps)^[steps] (g, [])).2).foldl
            (fun h p => if h.hasEdge p.1
              then h.setCap p.1 ((((Final.roundStep s t infoFlow eps)^[steps]
                  (g, [])).1).getCapD p.1 0)
              else h) g).edges.map (fun p => p.2.capacity)
      apply caps_eq_of_lookCap
      · show (((Final.roundStep s t infoFlow eps)^[steps] (g, [])).1).keys
          = ((((Final.roundStep s t infoFlow eps)^[steps] (g, [])).2).foldl
              (fun h p => if h.hasEdge p.1
                then h.setCap p.1 ((((Final.roundStep s t infoFlow eps)^[steps]
                    (g, [])).1).getCapD p.1 0)
                else h) g).keys
        rw [hlivekeys, hkeysc]
      · show (((Final.roundStep s t infoFlow eps)^[steps] (g, [])).1).keys.Nodup
        rw [hkeysc]
        exact hnd
      · intro e he
        have hek : e ∈ g.keys := by
          have : e ∈ (((Final.roundStep s t infoFlow eps)^[steps] (g, [])).1).keys := he
          rwa [hkeysc] at this
        have hval := hliveval e hek
        show (((Final.roundStep s t infoFlow eps)^[steps] (g, [])).1).getCapD e 0
          = ((((Final.roundStep s t infoFlow eps)^[steps] (g, [])).2).foldl
              (fun h p => if h.hasEdge p.1
                then h.setCap p.1 ((((Final.roundStep s t infoFlow eps)^[steps]
                    (g, [])).1).getCapD p.1 0)
                else h) g).getCapD e 0
        rw [hval]
        by_cases haff : e ∈ (((Final.roundStep s t infoFlow eps)^[steps]
            (g, [])).2).map Prod.fst
        · rw [if_pos haff]
        · rw [if_neg haff]
          exact iterate_roundStepF_untouched g s t infoFlow eps steps e haff

/-- Witness for C9 at the concrete chain in flow mode, two rounds. -/
theorem C9_commit_clamp_noop_and_refinement_witness :
    gW.keys.Nodup ∧ capsGE1 gW ∧
    ((∀ (e : Edge) (r : Int),
      Final1.lookupRed (Final1.multi_step_attack gW "N1" "N3" true 2 2).cum e = some r →
        (gW.getCapD e 0 - r
            = (Final1.multi_step_attack gW "N1" "N3" true 2 2).copyG.getCapD e 0 ∧
         1 ≤ (Final1.multi_step_attack gW "N1" "N3" true 2 2).copyG.getCapD e 0 ∧
         max 1 (gW.getCapD e 0 - r) = gW.getCapD e 0 - r)) ∧
    ((Final.multi_step_attack gW "N1" "N3" true 2 2).flowAfter
      = maxFlowValue (Final.multi_step_attack gW "N1" "N3" true 2 2).live "N1" "N3")) :=
  ⟨by decide, by decide,
   C9_commit_clamp_noop_and_refinement gW "N1" "N3" true 2 2 (by decide) (by decide)⟩

end FlowUA

namespace FlowUA

/- ---------- C10: construction-time capacity normalisation ---------- -/

theorem ensure_capacity_ge (m : Int) (c : RawCap) : m ≤ ensure_capacity m c := by
  cases c with
  | missing => exact le_refl m
  | noneVal => exact le_refl m
  | intLike n => exact le_max_right n m
  | bad => exact le_refl m

/-- C10: `_ensure_capacity` coerces every edge's capacity to an integer at
least `min_cap`: a missing or None capacity becomes `min_cap`, a convertible
value becomes `max(int(value), min_cap)`, a non-convertible value becomes
`min_cap`; with the default `min_cap = 1` the capacity-floor invariant holds
for every edge before any attack runs, even on malformed input. -/
theorem C10_ensure_capacity_normalises (min_cap : Int) (es : List (Edge × RawCap × Bool)) :
    (∀ p ∈ (ensureCapacityGraph min_cap es).edges, min_cap ≤ p.2.capacity) ∧
    (∀ n : Int, ensure_capacity min_cap (RawCap.intLike n) = max n min_cap) ∧
    (ensure_capacity min_cap RawCap.missing = min_cap) ∧
    (ensure_capacity min_cap RawCap.noneVal = min_cap) ∧
    (ensure_capacity min_cap RawCap.bad = min_cap) ∧
    capsGE1 (ensureCapacityGraph 1 es) := by
  refine ⟨?_, fun n => rfl, rfl, rfl, rfl, ?_⟩
  · intro p hp
    unfold ensureCapacityGraph at hp
    rw [List.mem_map] at hp
    obtain ⟨q, -, hq⟩ := hp
    rw [← hq]
    exact ensure_capacity_ge min_cap q.2.1
  · intro p hp
    unfold ensureCapacityGraph at hp
    rw [List.mem_map] at hp
    obtain ⟨q, -, hq⟩ := hp
    rw [← hq]
    exact ensure_capacity_ge 1 q.2.1

/- ---------- C8: topology preservation (amended) ---------- -/

theorem budgetLoopF_keys (budget : Int) :
    ∀ (cands : List (Edge × Int)) (g : FlowGraph) (total : Int),
      (Final.budgetLoop budget cands g total).1.keys = g.keys := by
  intro cands
  induction cands with
  | nil => intro g total; rw [budgetLoopF_nil]
  | cons pc rest ih =>
    intro g total
    obtain ⟨e, cap⟩ := pc
    by_cases hbt : budget ≤ total
    · rw [budgetLoopF_cons_stop e cap rest g hbt]
    · rw [budgetLoopF_cons_go e cap rest g hbt]
      dsimp only
      rw [ih, keys_setCap]

theorem budgetLoop1_keys (budget : Int) :
    ∀ (cands : List (Edge × Int × Int)) (g : FlowGraph) (total : Int),
      (Final1.budgetLoop budget cands g total).1.keys = g.keys := by
  intro cands
  induction cands with
  | nil => intro g total; rw [budgetLoop1_nil]
  | cons pc rest ih =>
    intro g total
    obtain ⟨e, cap, fl⟩ := pc
    by_cases hbt : budget ≤ total
    · rw [budgetLoop1_cons_stop e cap fl rest g hbt]
    · by_cases hr : cap - 1 ≤ 0
      · rw [budgetLoop1_cons_skip e cap fl rest g hbt hr]
        exact ih g total
      · rw [budgetLoop1_cons_go e cap fl rest g hbt hr]
        rw [ih, keys_setCap]

theorem commitF_keys (gc : FlowGraph) :
    ∀ (aff : List (Edge × Int)) (h : FlowGraph),
      (aff.foldl (fun h p => if h.hasEdge p.1 then h.setCap p.1 (gc.getCapD p.1 0) else h)
        h).keys = h.keys := by
  intro aff
  induction aff with
  | nil => intro h; rfl
  | cons q rest ih =>
    intro h
    rw [List.foldl_cons]
    by_cases hh : h.hasEdge q.1
    · rw [if_pos hh, ih, keys_setCap]
    · rw [if_neg hh, ih]

theorem commit1_keys (g : FlowGraph) :
    ∀ (m : Final1.RedMap) (h : FlowGraph),
      (m.foldl (fun h p => h.setCap p.1 (max 1 (g.getCapD p.1 0 - p.2))) h).keys
        = h.keys := by
  intro m
  induction m with
  | nil => intro h; rfl
  | cons q rest ih =>
    intro h
    rw [List.foldl_cons, ih, keys_setCap]

/-- C8 amended: `budgeted_attack` and `multi_step_attack` (both the Final.py
and the Final1.py variant) preserve the node set and the edge set of the live
graph: they perform capacity reduction only. (The original claim extended
this to week9's `random_attack`, which instead removes the sampled edges from
the live graph; see the counterexample.) -/
theorem C8_capacity_attacks_preserve_topology (g : FlowGraph) (op : AttackOp) :
    (applyOp g op).keys = g.keys ∧ (applyOp g op).nodes = g.nodes := by
  have hkeys : (applyOp g op).keys = g.keys := by
    cases op with
    | budgF s t b =>
      show (Final.budgetLoop b (Final.candidates g (maxFlowDict g s t)) g 0).1.keys = g.keys
      exact budgetLoopF_keys b _ g 0
    | budg1 s t b =>
      show (Final1.budgetLoop b (Final1.sortedCandidates g (maxFlowDict g s t)) g 0).1.keys
        = g.keys
      exact budgetLoop1_keys b _ g 0
    | multiF s t i steps eps =>
      show ((((Final.roundStep s t i eps)^[steps] (g, [])).2).foldl
        (fun h p => if h.hasEdge p.1
          then h.setCap p.1 ((((Final.roundStep s t i eps)^[steps] (g, [])).1).getCapD p.1 0)
          else h) g).keys = g.keys
      exact commitF_keys _ _ g
    | multi1 s t i steps eps =>
      show ((((Final1.roundStep s t i eps)^[steps] (g, ([] : Final1.RedMap))).2).foldl
        (fun h p => h.setCap p.1 (max 1 (g.getCapD p.1 0 - p.2))) g).keys = g.keys
      exact commit1_keys g _ g
  refine ⟨hkeys, ?_⟩
  unfold FlowGraph.nodes
  rw [hkeys]

/-- C8 counterexample: the week9 `random_attack` (cited by the claim as an
attack operation) removes the sampled edge from the live graph, so an attack
invocation can change the edge set: on the one-edge graph, sampling that edge
leaves an empty edge list. -/
theorem C8_random_attack_removes_edges :
    (Week9.random_attack gDis "a" "b" [("a", "b")]).2.2.edges = [] ∧
    gDis.edges ≠ [] ∧
    (Week9.random_attack gDis "a" "b" [("a", "b")]).2.2.keys ≠ gDis.keys := by
  refine ⟨rfl, ?_, ?_⟩
  · intro h
    cases h
  · intro h
    cases h

end FlowUA

namespace FlowUA

/- ---------- C4: disconnected source and sink ---------- -/

theorem sum_map_sub_int {α : Type} (l : List α) (f h : α → Int) :
    (l.map (fun x => f x - h x)).sum = (l.map f).sum - (l.map h).sum := by
  induction l with
  | nil => simp
  | cons a rest ih =>
    simp only [List.map_cons, List.sum_cons, ih]
    ring

theorem sum_nonpos_int : ∀ l : List Int, (∀ x ∈ l, x ≤ 0) → l.sum ≤ 0 := by
  intro l
  induction l with
  | nil => intro _; simp
  | cons a rest ih =>
    intro h
    rw [List.sum_cons]
    have h1 := h a (List.mem_cons_self a rest)
    have h2 := ih (fun x hx => h x (List.mem_cons_of_mem a hx))
    omega

theorem forall₂_left_mem {R : Int → Int → Prop} :
    ∀ {f cs : List Int}, List.Forall₂ R f cs → ∀ {x : Int}, x ∈ f → ∃ c ∈ cs, R x c := by
  intro f cs h
  induction h with
  | nil => intro x hx; cases hx
  | @cons a b f' cs' hxc htail ih =>
    intro x hx
    rcases List.mem_cons.mp hx with h' | h'
    · exact ⟨b, List.mem_cons_self b cs', h' ▸ hxc⟩
    · obtain ⟨c, hc, hr⟩ := ih h'
      exact ⟨c, List.mem_cons_of_mem b hc, hr⟩

theorem sum_ite_mem (a : Node) (x : Int) :
    ∀ T : List Node, T.Nodup →
      (T.map (fun n => if a = n then x else 0)).sum = if a ∈ T then x else 0 := by
  intro T
  induction T with
  | nil => intro _; simp
  | cons n rest ih =>
    intro hnd
    rw [List.nodup_cons] at hnd
    rw [List.map_cons, List.sum_cons, ih hnd.2]
    by_cases han : a = n
    · have hnr : a ∉ rest := by rw [han]; exact hnd.1
      rw [if_pos han, if_neg hnr, add_zero,
        if_pos (show a ∈ n :: rest by rw [han]; exact List.mem_cons_self n rest)]
    · rw [if_neg han, zero_add]
      by_cases har : a ∈ rest
      · rw [if_pos har, if_pos (List.mem_cons_of_mem n har)]
      · rw [if_neg har,
          if_neg (by rw [List.mem_cons]; push_neg; exact ⟨han, har⟩)]

theorem sum_single (hh : Node → Int) :
    ∀ T : List Node, T.Nodup → ∀ s : Node, s ∈ T → (∀ n ∈ T, n ≠ s → hh n = 0) →
      (T.map hh).sum = hh s := by
  intro T
  induction T with
  | nil => intro _ s hs; cases hs
  | cons n rest ih =>
    intro hnd s hs hz
    rw [List.nodup_cons] at hnd
    rw [List.map_cons, List.sum_cons]
    rcases List.mem_cons.mp hs with hsn | hsr
    · have hrest : (rest.map hh).sum = 0 := by
        apply List.sum_eq_zero
        intro x hx
        rw [List.mem_map] at hx
        obtain ⟨m, hm, hmx⟩ := hx
        rw [← hmx]
        apply hz m (List.mem_cons_of_mem n hm)
        intro hms
        rw [hms, hsn] at hm
        exact hnd.1 hm
      rw [hrest, hsn, add_zero]
    · have hns : n ≠ s := fun hc => hnd.1 (hc ▸ hsr)
      rw [hz n (List.mem_cons_self n rest) hns, zero_add]
      exact ih hnd.2 s hsr (fun m hm hms => hz m (List.mem_cons_of_mem n hm) hms)

theorem sum_filterSel (sel : Edge → Node) (T : List Node) (hT : T.Nodup) :
    ∀ pr : List (Edge × Int),
      (T.map (fun n => ((pr.filter (fun p => sel p.1 == n)).map Prod.snd).sum)).sum
      = (pr.map (fun p => if sel p.1 ∈ T then p.2 else 0)).sum := by
  intro pr
  induction pr with
  | nil =>
    simp
  | cons q rest ih =>
    have hsplit : ∀ n : Node,
        (((q :: rest).filter (fun p => sel p.1 == n)).map Prod.snd).sum
        = (if sel q.1 = n then q.2 else 0)
          + ((rest.filter (fun p => sel p.1 == n)).map Prod.snd).sum := by
      intro n
      by_cases h : sel q.1 = n
      · rw [List.filter_cons_of_pos (by simp [h]), List.map_cons, List.sum_cons, if_pos h]
      · rw [List.filter_cons_of_neg (by simp [h]), if_neg h, zero_add]
    have hmap : (T.map (fun n =>
        (((q :: rest).filter (fun p => sel p.1 == n)).map Prod.snd).sum))
        = (T.map (fun n => (if sel q.1 = n then q.2 else 0)
            + ((rest.filter (fun p => sel p.1 == n)).map Prod.snd).sum)) :=
      List.map_congr_left (fun n _ => hsplit n)
    rw [hmap, List.sum_map_add, sum_ite_mem (sel q.1) q.2 T hT, ih,
      List.map_cons, List.sum_cons]

theorem endpoints_mem_nodesOfKeys {ks : List Edge} {e : Edge} (h : e ∈ ks) :
    e.1 ∈ nodesOfKeys ks ∧ e.2 ∈ nodesOfKeys ks := by
  constructor
  · rw [nodesOfKeys, List.mem_dedup, List.mem_flatMap]
    exact ⟨e, h, by simp⟩
  · rw [nodesOfKeys, List.mem_dedup, List.mem_flatMap]
    exact ⟨e, h, by simp⟩

theorem outAt_eq_zero_of_not_node {ks : List Edge} {f : List Int} {n : Node}
    (hn : n ∉ nodesOfKeys ks) : outAt (ks.zip f) n = 0 := by
  unfold outAt
  have hfil : (ks.zip f).filter (fun p => p.1.1 == n) = [] := by
    rw [List.filter_eq_nil]
    intro p hp hpn
    rw [beq_iff_eq] at hpn
    exact hn (hpn ▸ (endpoints_mem_nodesOfKeys (List.of_mem_zip hp).1).1)
  rw [hfil]
  rfl

theorem inAt_eq_zero_of_not_node {ks : List Edge} {f : List Int} {n : Node}
    (hn : n ∉ nodesOfKeys ks) : inAt (ks.zip f) n = 0 := by
  unfold inAt
  have hfil : (ks.zip f).filter (fun p => p.1.2 == n) = [] := by
    rw [List.filter_eq_nil]
    intro p hp hpn
    rw [beq_iff_eq] at hpn
    exact hn (hpn ▸ (endpoints_mem_nodesOfKeys (List.of_mem_zip hp).1).2)
  rw [hfil]
  rfl

/-- Every feasible flow has nonpositive value at the source when a closed cut
separates the source side from the sink: there is then no edge out of the
source side, so the net flow out of it cannot be positive. -/
theorem valueAt_le_zero_of_cut (ks : List Edge) (cs : List Int) (s t : Node) (f : List Int)
    (S : List Node) (hs : s ∈ S) (ht : t ∉ S)
    (hclosed : ∀ e ∈ ks, e.1 ∈ S → e.2 ∈ S)
    (hf : feasibleB ks cs s t f = true) :
    valueAt ks s f ≤ 0 := by
  obtain ⟨hb, hcons⟩ := (feasibleB_iff ks cs s t f).mp hf
  have hTnd : S.dedup.Nodup := List.nodup_dedup S
  have hsT : s ∈ S.dedup := List.mem_dedup.mpr hs
  have hA : (S.dedup.map (fun n => outAt (ks.zip f) n - inAt (ks.zip f) n)).sum
      = valueAt ks s f := by
    apply sum_single _ S.dedup hTnd s hsT
    intro n hn hns
    by_cases hnode : n ∈ nodesOfKeys ks
    · have hnt : n ≠ t := fun hc => ht (List.mem_dedup.mp (hc ▸ hn))
      rw [hcons n hnode hns hnt]
      ring
    · rw [outAt_eq_zero_of_not_node hnode, inAt_eq_zero_of_not_node hnode]
      ring
  have hout := sum_filterSel (fun e => e.1) S.dedup hTnd (ks.zip f)
  have hin := sum_filterSel (fun e => e.2) S.dedup hTnd (ks.zip f)
  have hB : (S.dedup.map (fun n => outAt (ks.zip f) n - inAt (ks.zip f) n)).sum
      = ((ks.zip f).map (fun p =>
          (if p.1.1 ∈ S.dedup then p.2 else 0) - (if p.1.2 ∈ S.dedup then p.2 else 0))).sum := by
    rw [sum_map_sub_int, sum_map_sub_int]
    unfold outAt inAt
    rw [hout, hin]
  have hC : ((ks.zip f).map (fun p =>
      (if p.1.1 ∈ S.dedup then p.2 else 0) - (if p.1.2 ∈ S.dedup then p.2 else 0))).sum ≤ 0 := by
    apply sum_nonpos_int
    intro x hx
    rw [List.mem_map] at hx
    obtain ⟨p, hp, hpx⟩ := hx
    rw [← hpx]
    have hkey : p.1 ∈ ks := (List.of_mem_zip hp).1
    have hf0 : 0 ≤ p.2 := by
      obtain ⟨c, -, hr⟩ := forall₂_left_mem hb (List.of_mem_zip hp).2
      exact hr.1
    have hcl : p.1.1 ∈ S.dedup → p.1.2 ∈ S.dedup := fun h1 =>
      List.mem_dedup.mpr (hclosed p.1 hkey (List.mem_dedup.mp h1))
    by_cases h1 : p.1.1 ∈ S.dedup
    · rw [if_pos h1, if_pos (hcl h1)]
      omega
    · rw [if_neg h1]
      by_cases h2 : p.1.2 ∈ S.dedup
      · rw [if_pos h2]
        omega
      · rw [if_neg h2]
        omega
  rw [← hA, hB]
  exact hC

/-- The max-flow value is 0 whenever a closed cut separates source from sink
(the modelled disconnection criterion). -/
theorem maxFlowValueKC_zero_of_cut (ks : List Edge) (cs : List Int) (s t : Node)
    (S : List Node) (hs : s ∈ S) (ht : t ∉ S)
    (hclosed : ∀ e ∈ ks, e.1 ∈ S → e.2 ∈ S) :
    maxFlowValueKC ks cs s t = 0 := by
  apply le_antisymm
  · unfold maxFlowValueKC
    apply foldrMax_le _ _ 0 0 (le_refl 0)
    intro f hf
    unfold feasibleFlows at hf
    rw [List.mem_filter] at hf
    exact valueAt_le_zero_of_cut ks cs s t f S hs ht hclosed hf.2
  · exact maxFlowValueKC_nonneg ks cs s t

end FlowUA

namespace FlowUA

theorem zip_replicate_snd_zero {ks : List Edge} {n : Nat} {p : Edge × Int}
    (hp : p ∈ ks.zip (List.replicate n 0)) : p.2 = 0 := by
  obtain ⟨pe, pf⟩ := p
  exact List.eq_of_mem_replicate (List.of_mem_zip hp).2

theorem outAt_zero_pairs {pr : List (Edge × Int)} (h : ∀ p ∈ pr, p.2 = 0) (n : Node) :
    outAt pr n = 0 := by
  unfold outAt
  apply List.sum_eq_zero
  intro x hx
  rw [List.mem_map] at hx
  obtain ⟨p, hp, hpx⟩ := hx
  rw [← hpx]
  exact h p (List.mem_filter.mp hp).1

theorem inAt_zero_pairs {pr : List (Edge × Int)} (h : ∀ p ∈ pr, p.2 = 0) (n : Node) :
    inAt pr n = 0 := by
  unfold inAt
  apply List.sum_eq_zero
  intro x hx
  rw [List.mem_map] at hx
  obtain ⟨p, hp, hpx⟩ := hx
  rw [← hpx]
  exact h p (List.mem_filter.mp hp).1

theorem forall₂_replicate_zero :
    ∀ cs : List Int, (∀ c ∈ cs, 0 ≤ c) →
      List.Forall₂ (fun x c => 0 ≤ x ∧ x ≤ c) (List.replicate cs.length 0) cs := by
  intro cs
  induction cs with
  | nil => intro _; exact List.Forall₂.nil
  | cons c rest ih =>
    intro h
    rw [List.length_cons, List.replicate_succ]
    exact List.Forall₂.cons ⟨le_refl 0, h c (List.mem_cons_self c rest)⟩
      (ih (fun x hx => h x (List.mem_cons_of_mem c hx)))

theorem zero_feasible (ks : List Edge) (cs : List Int) (s t : Node)
    (hcs : ∀ c ∈ cs, 0 ≤ c) :
    feasibleB ks cs s t (List.replicate cs.length 0) = true := by
  rw [feasibleB_iff]
  refine ⟨forall₂_replicate_zero cs hcs, ?_⟩
  intro n _ _ _
  rw [outAt_zero_pairs (fun p hp => zip_replicate_snd_zero hp) n,
    inAt_zero_pairs (fun p hp => zip_replicate_snd_zero hp) n]

theorem valueAt_replicate_zero (ks : List Edge) (s : Node) (n : Nat) :
    valueAt ks s (List.replicate n 0) = 0 := by
  unfold valueAt
  rw [outAt_zero_pairs (fun p hp => zip_replicate_snd_zero hp) s,
    inAt_zero_pairs (fun p hp => zip_replicate_snd_zero hp) s]
  ring

/-- Under a closed cut, the modelled `nx.maximum_flow` assignment is the
all-zero assignment (the first enumerated feasible assignment attains the
maximum value 0). -/
theorem maxFlowAssign_zero_of_cut (ks : List Edge) (cs : List Int) (s t : Node)
    (S : List Node) (hs : s ∈ S) (ht : t ∉ S)
    (hclosed : ∀ e ∈ ks, e.1 ∈ S → e.2 ∈ S) (hcs : ∀ c ∈ cs, 0 ≤ c) :
    maxFlowAssignKC ks cs s t = List.replicate cs.length 0 := by
  obtain ⟨r, hr⟩ := tuples_zero_head cs
  unfold maxFlowAssignKC
  have hff : feasibleFlows ks cs s t
      = List.replicate cs.length 0 :: (r.filter (feasibleB ks cs s t)) := by
    unfold feasibleFlows
    rw [hr, List.filter_cons_of_pos (zero_feasible ks cs s t hcs)]
  rw [hff]
  have hpred : (fun f => valueAt ks s f == maxFlowValueKC ks cs s t)
      (List.replicate cs.length 0) = true := by
    dsimp only
    rw [valueAt_replicate_zero ks s cs.length,
      maxFlowValueKC_zero_of_cut ks cs s t S hs ht hclosed]
    rfl
  have hfind : (List.replicate cs.length 0 :: (r.filter (feasibleB ks cs s t))).find?
      (fun f => valueAt ks s f == maxFlowValueKC ks cs s t)
      = some (List.replicate cs.length 0) := List.find?_cons_of_pos _ hpred
  rw [hfind]

theorem caps_nonneg_of_capsGE1 {g : FlowGraph} (hc : capsGE1 g) : ∀ c ∈ g.caps, 0 ≤ c := by
  intro c hcm
  unfold FlowGraph.caps at hcm
  rw [List.mem_map] at hcm
  obtain ⟨p, hp, hpc⟩ := hcm
  have := hc p hp
  omega

theorem flowAt_zero_of_cut {g : FlowGraph} {s t : Node} (S : List Node) (hs : s ∈ S)
    (ht : t ∉ S) (hclosed : ∀ e ∈ g.keys, e.1 ∈ S → e.2 ∈ S) (hc : capsGE1 g) (e : Edge) :
    flowAt (maxFlowDict g s t) e = 0 := by
  unfold maxFlowDict flowAt
  rw [maxFlowAssign_zero_of_cut g.keys g.caps s t S hs ht hclosed (caps_nonneg_of_capsGE1 hc)]
  cases hfind : (g.keys.zip (List.replicate g.caps.length (0 : Int))).find?
      (fun p => p.1 == e) with
  | none => rfl
  | some q =>
    exact zip_replicate_snd_zero (List.mem_of_find?_eq_some hfind)

theorem candidatesF_nil_of_cut {g : FlowGraph} {s t : Node} (S : List Node) (hs : s ∈ S)
    (ht : t ∉ S) (hclosed : ∀ e ∈ g.keys, e.1 ∈ S → e.2 ∈ S) (hc : capsGE1 g) :
    Final.candidates g (maxFlowDict g s t) = [] := by
  unfold Final.candidates
  have hfil : (maxFlowDict g s t).filter (fun p => decide (0 < p.2)) = [] := by
    rw [List.filter_eq_nil_iff]
    intro p hp
    unfold maxFlowDict at hp
    rw [maxFlowAssign_zero_of_cut g.keys g.caps s t S hs ht hclosed
      (caps_nonneg_of_capsGE1 hc)] at hp
    have := zip_replicate_snd_zero hp
    simp [this]
  rw [hfil, List.map_nil, sortLe_nil]

theorem candidates1_nil_of_cut {g : FlowGraph} {s t : Node} (S : List Node) (hs : s ∈ S)
    (ht : t ∉ S) (hclosed : ∀ e ∈ g.keys, e.1 ∈ S → e.2 ∈ S) (hc : capsGE1 g) :
    Final1.sortedCandidates g (maxFlowDict g s t) = [] := by
  unfold Final1.sortedCandidates Final1.candidates
  have hfm : g.edges.filterMap (fun p =>
      if p.2.can_attack then
        if 0 < flowAt (maxFlowDict g s t) p.1 then
          some (p.1, p.2.capacity, flowAt (maxFlowDict g s t) p.1)
        else none
      else none) = [] := by
    rw [List.filterMap_eq_nil_iff]
    intro a _
    by_cases hatk : a.2.can_attack
    · rw [if_pos hatk]
      rw [if_neg]
      rw [flowAt_zero_of_cut S hs ht hclosed hc a.1]
      omega
    · rw [if_neg hatk]
  rw [hfm, sortLe_nil]

theorem stepCandidates1_flow_nil_of_cut {g : FlowGraph} {s t : Node} (S : List Node)
    (hs : s ∈ S) (ht : t ∉ S) (hclosed : ∀ e ∈ g.keys, e.1 ∈ S → e.2 ∈ S)
    (hc : capsGE1 g) :
    Final1.stepCandidates g (maxFlowDict g s t) true = [] := by
  unfold Final1.stepCandidates
  rw [if_pos rfl]
  rw [List.filterMap_eq_nil_iff]
  intro a _
  by_cases hatk : a.2.can_attack
  · rw [if_pos hatk]
    simp only
    rw [if_neg]
    rw [flowAt_zero_of_cut S hs ht hclosed hc a.1]
    omega
  · rw [if_neg hatk]

theorem roundStep1_fixpoint_of_cut {g : FlowGraph} {s t : Node} (S : List Node)
    (hs : s ∈ S) (ht : t ∉ S) (hclosed : ∀ e ∈ g.keys, e.1 ∈ S → e.2 ∈ S)
    (hc : capsGE1 g) (eps : Nat) (m : Final1.RedMap) :
    Final1.roundStep s t true eps (g, m) = (g, m) := by
  unfold Final1.roundStep Final1.topEdges
  rw [stepCandidates1_flow_nil_of_cut S hs ht hclosed hc, sortLe_nil,
    List.take_nil, List.foldl_nil]

end FlowUA

namespace FlowUA

/-- C4 (amended): when a closed cut separates the source from the sink (the
sink is unreachable), max-flow is 0 and both budgeted_attack variants return
flowBefore = flowAfter = 0, select no candidates and leave the graph
untouched; multi_step_attack (both variants, every ranking setting) also
returns flowBefore = flowAfter = 0, and in the Final1 variant with flow
ranking it selects no edges and leaves the live graph untouched — but with
capacity ranking (both variants) and with flow ranking in the Final variant
it may still reduce capacities, so "no edges are touched" does not extend to
multi_step_attack in general (see the counterexample). -/
theorem C4_disconnected_behaviour (g : FlowGraph) (s t : Node) (budget : Int)
    (infoFlow : Bool) (steps eps : Nat) (S : List Node) (hs : s ∈ S) (ht : t ∉ S)
    (hclosed : ∀ e ∈ g.keys, e.1 ∈ S → e.2 ∈ S) (hc : capsGE1 g) :
    maxFlowValue g s t = 0 ∧
    ((Final.budgeted_attack g s t budget).flowBefore = 0 ∧
     (Final.budgeted_attack g s t budget).flowAfter = 0 ∧
     (Final.budgeted_attack g s t budget).affected = [] ∧
     (Final.budgeted_attack g s t budget).live = g) ∧
    ((Final1.budgeted_attack g s t budget).1 = 0 ∧
     (Final1.budgeted_attack g s t budget).2.1 = 0 ∧
     (Final1.budgeted_attack g s t budget).2.2 = g) ∧
    ((Final.multi_step_attack g s t infoFlow steps eps).flowBefore = 0 ∧
     (Final.multi_step_attack g s t infoFlow steps eps).flowAfter = 0) ∧
    ((Final1.multi_step_attack g s t infoFlow steps eps).flowBefore = 0 ∧
     (Final1.multi_step_attack g s t infoFlow steps eps).flowAfter = 0) ∧
    ((Final1.multi_step_attack g s t true steps eps).live = g ∧
     (Final1.multi_step_attack g s t true steps eps).cum = []) := by
  have hzero : maxFlowValue g s t = 0 :=
    maxFlowValueKC_zero_of_cut g.keys g.caps s t S hs ht hclosed
  have hcandF := candidatesF_nil_of_cut S hs ht hclosed hc
  have hcand1 := candidates1_nil_of_cut S hs ht hclosed hc
  have hfix : (Final1.roundStep s t true eps)^[steps] (g, ([] : Final1.RedMap))
      = (g, ([] : Final1.RedMap)) :=
    Function.iterate_fixed (roundStep1_fixpoint_of_cut S hs ht hclosed hc eps []) steps
  refine ⟨hzero, ⟨hzero, ?_, ?_, ?_⟩, ⟨hzero, ?_, ?_⟩, ⟨hzero, ?_⟩, ⟨hzero, ?_⟩, ?_, ?_⟩
  · show maxFlowValue
      (Final.budgetLoop budget (Final.candidates g (maxFlowDict g s t)) g 0).1 s t = 0
    rw [hcandF, budgetLoopF_nil]
    exact hzero
  · show (Final.budgetLoop budget (Final.candidates g (maxFlowDict g s t)) g 0).2.2 = []
    rw [hcandF, budgetLoopF_nil]
  · show (Final.budgetLoop budget (Final.candidates g (maxFlowDict g s t)) g 0).1 = g
    rw [hcandF, budgetLoopF_nil]
  · show maxFlowValue
      (Final1.budgetLoop budget (Final1.sortedCandidates g (maxFlowDict g s t)) g 0).1 s t = 0
    rw [hcand1, budgetLoop1_nil]
    exact hzero
  · show (Final1.budgetLoop budget (Final1.sortedCandidates g (maxFlowDict g s t)) g 0).1 = g
    rw [hcand1, budgetLoop1_nil]
  · show maxFlowValue (((Final.roundStep s t infoFlow eps)^[steps] (g, [])).1) s t = 0
    unfold maxFlowValue
    rw [(iterate_roundStepF s t infoFlow eps steps (g, [])).2]
    exact maxFlowValueKC_zero_of_cut g.keys _ s t S hs ht hclosed
  · show maxFlowValue
      (Final1.commit g (((Final1.roundStep s t infoFlow eps)^[steps]
        (g, ([] : Final1.RedMap))).2)) s t = 0
    unfold maxFlowValue
    rw [show (Final1.commit g (((Final1.roundStep s t infoFlow eps)^[steps]
        (g, ([] : Final1.RedMap))).2)).keys = g.keys from commit1_keys g _ g]
    exact maxFlowValueKC_zero_of_cut g.keys _ s t S hs ht hclosed
  · show Final1.commit g (((Final1.roundStep s t true eps)^[steps]
        (g, ([] : Final1.RedMap))).2) = g
    rw [hfix]
    rfl
  · show (((Final1.roundStep s t true eps)^[steps] (g, ([] : Final1.RedMap))).2) = []
    rw [hfix]

/-- Witness for C4 at the one-edge graph a -> b with unreachable sink c,
cut side S = [a's side]. -/
theorem C4_disconnected_behaviour_witness :
    ("a" ∈ ["a", "b"] ∧ "c" ∉ ["a", "b"] ∧
      (∀ e ∈ gDis.keys, e.1 ∈ ["a", "b"] → e.2 ∈ ["a", "b"]) ∧ capsGE1 gDis) ∧
    (maxFlowValue gDis "a" "c" = 0 ∧
     ((Final.budgeted_attack gDis "a" "c" 5).flowBefore = 0 ∧
      (Final.budgeted_attack gDis "a" "c" 5).flowAfter = 0 ∧
      (Final.budgeted_attack gDis "a" "c" 5).affected = [] ∧
      (Final.budgeted_attack gDis "a" "c" 5).live = gDis) ∧
     ((Final1.budgeted_attack gDis "a" "c" 5).1 = 0 ∧
      (Final1.budgeted_attack gDis "a" "c" 5).2.1 = 0 ∧
      (Final1.budgeted_attack gDis "a" "c" 5).2.2 = gDis) ∧
     ((Final.multi_step_attack gDis "a" "c" false 1 1).flowBefore = 0 ∧
      (Final.multi_step_attack gDis "a" "c" false 1 1).flowAfter = 0) ∧
     ((Final1.multi_step_attack gDis "a" "c" false 1 1).flowBefore = 0 ∧
      (Final1.multi_step_attack gDis "a" "c" false 1 1).flowAfter = 0) ∧
     ((Final1.multi_step_attack gDis "a" "c" true 1 1).live = gDis ∧
      (Final1.multi_step_attack gDis "a" "c" true 1 1).cum = [])) :=
  ⟨⟨by decide, by decide, by decide, by decide⟩,
   C4_disconnected_behaviour gDis "a" "c" 5 false 1 1 ["a", "b"]
     (by decide) (by decide) (by decide) (by decide)⟩

/-- C4 counterexample: the claim as stated fails — with a disconnected pair,
`multi_step_attack` with capacity ranking (both variants) still halves the
top-capacity edge, and the Final.py variant does so even with flow ranking
(zero-flow dictionary entries are listed); the capacity of a -> b drops from
4 to 2 although the sink is unreachable. -/
theorem C4_disconnected_still_touches_edges :
    maxFlowValue gDis "a" "c" = 0 ∧
    gDis.getCapD ("a", "b") 0 = 4 ∧
    (Final1.multi_step_attack gDis "a" "c" false 1 1).live.getCapD ("a", "b") 0 = 2 ∧
    (Final.multi_step_attack gDis "a" "c" false 1 1).live.getCapD ("a", "b") 0 = 2 ∧
    (Final.multi_step_attack gDis "a" "c" true 1 1).live.getCapD ("a", "b") 0 = 2 := by
  refine ⟨by decide, by decide, by decide, by decide, by decide⟩

end FlowUA
